import Mathlib

/-!
# fibdrv: digit stores, bignum arithmetic and the Fibonacci engines

A shallow embedding of `bignum.h` and of the `fib_sequence` variants of `fibdrv.c`.

Conventions of the embedding.

* `unsigned long long` values are naturals below `U64 = 2 ^ 64`, `unsigned int` values are
  naturals below `U32 = 2 ^ 32`; every C operation that can wrap carries an explicit `%`.
* A heap block is a list of slots.  A slot holds `some v` once it has been written and `none`
  while it still has the indeterminate contents `krealloc` hands out.
* A pointer is `none` for `NULL` and `some block` otherwise.
* An expression to which C gives no value (a read outside the block or through `NULL`, a read
  of a slot never written, a shift by a count that is not below the width of the shifted type,
  `__builtin_clz` or `__builtin_clzll` of zero) has no value here either; an operation that
  uses such a value returns `none`.  A value that is computed but never used does not make the
  operation undefined.
* Allocation never fails.  Loop counters declared `int` are naturals; both agree as long as
  stores have fewer than `2 ^ 31` digits.
* The `long long` arithmetic of the native `fib_sequence` and the `loff_t` arithmetic of
  `fib_device_lseek` wrap modulo `2 ^ 64`, as in a kernel build (`-fno-strict-overflow`).
* Every operation is a function of the stores it reads and returns the store it writes; the
  destination is a store different from the sources.
-/

namespace Fibdrv

/-! ## Machine words -/

/-- Modulus of `unsigned long long` arithmetic. -/
def U64 : Nat := 2 ^ 64

/-- Modulus of `unsigned int` arithmetic. -/
def U32 : Nat := 2 ^ 32

/-- The macro `N_BITS`: number of bits of `unsigned long long`, `sizeof(unsigned long long) * 8`. -/
def N_BITS : Nat := 64

/-- The macro `N_BITS_TZ`: `__builtin_ctz(N_BITS)`, the base two logarithm of `N_BITS`. -/
def N_BITS_TZ : Nat := 6

/-- Number of leading zero bits of `x` read as a `w`-bit word (`w` for `x = 0`). -/
def leadingZeros : Nat → Nat → Nat
  | 0, _ => 0
  | w + 1, x => if x / 2 ^ w % 2 = 1 then 0 else leadingZeros w x + 1

/-- The builtin `__builtin_clz`: its parameter is an `unsigned int`, so the argument is first
reduced modulo `2 ^ 32`; the result is undefined for zero. -/
def builtin_clz (x : Nat) : Option Nat :=
  if x % U32 = 0 then none else some (leadingZeros 32 (x % U32))

/-- The builtin `__builtin_clzll` on an `unsigned long long`; the result is undefined for zero. -/
def builtin_clzll (x : Nat) : Option Nat :=
  if x % U64 = 0 then none else some (leadingZeros 64 (x % U64))

/-- Left shift of an `unsigned long long`: undefined when the count is not below 64. -/
def shl64 (x n : Nat) : Option Nat :=
  if n < N_BITS then some ((x <<< n) % U64) else none

/-- Right shift of an `unsigned long long`: undefined when the count is not below 64. -/
def shr64 (x n : Nat) : Option Nat :=
  if n < N_BITS then some (x >>> n) else none

/-! ## Heap blocks -/

/-- A heap block of `unsigned long long` slots; `none` marks a slot that was never written. -/
abbrev Block := List (Option Nat)

/-- A pointer to a block; `none` is `NULL`. -/
abbrev Ptr := Option Block

/-- The read `p[i]`. -/
def rd (p : Ptr) (i : Nat) : Option Nat :=
  match p with
  | none => none
  | some b => (b.get? i).join

/-- The write `p[i] = v`; it yields the pointer with the updated block. -/
def wr (p : Ptr) (i v : Nat) : Option Ptr :=
  match p with
  | none => none
  | some b => if i < b.length then some (some (b.set i (some v))) else none

/-- The call `krealloc(p, n * sizeof(unsigned long long), GFP_KERNEL)`: a block of `n` slots that
keeps the old contents; the added slots are indeterminate.  For `NULL` it behaves like `kmalloc`. -/
def krealloc (p : Ptr) (n : Nat) : Block :=
  match p with
  | none => List.replicate n none
  | some b => b.take n ++ List.replicate (n - b.length) none

/-! ## The digit store -/

/-- The structure `bn`: the digit buffer, the number of digits in use and the number of
allocated slots. -/
structure bn where
  ptr : Ptr
  size : Nat
  capacity : Nat
deriving DecidableEq

/-- The function `bn_resize`. -/
def bn_resize (a : bn) (size : Nat) : bn :=
  { ptr := some (krealloc a.ptr size), size := a.size, capacity := size % U32 }

/-- The function `bn_init`, as the store it produces. -/
def bn_init : bn :=
  { ptr := none, size := 0, capacity := 0 }

/-- The function `bn_assign`. -/
def bn_assign (a : bn) (val : Nat) : Option bn := do
  let a := if a.ptr.isNone then bn_resize a 1 else a
  let p ← wr a.ptr 0 (val % U64)
  pure { ptr := p, size := 1, capacity := a.capacity }

/-- The function `bn_size`. -/
def bn_size (a : bn) : Nat := a.size

/-- The function `bn_capacity`. -/
def bn_capacity (a : bn) : Nat := a.capacity

/-- The function `bn_swap` as `fib_sequence` calls it.  `bn_swap(bn **a, bn **b)` exchanges the
two pointer-sized words found at `a` and at `b`.  Every caller passes the addresses of two
stores of type `bn`, so the words exchanged are their leading members `ptr`; the members
`size` and `capacity` stay where they are. -/
def bn_swap (a b : bn) : bn × bn :=
  ({ a with ptr := b.ptr }, { b with ptr := a.ptr })

/-- The macro `SIGN_BIT` of `bn_greater`: `1ull << (N_BITS - 1)`. -/
def SIGN_BIT : Nat := 2 ^ (N_BITS - 1)

/-- Conversion of an `unsigned long long` to `int`, as `bn_greater` returns it: the value is
reduced modulo `2 ^ 32` into the range of `int`. -/
def toInt32 (x : Nat) : Int :=
  if x % U32 < 2 ^ 31 then ((x % U32 : Nat) : Int) else ((x % U32 : Nat) : Int) - (U32 : Int)

/-- The digit loop of `bn_greater`; the first argument is `i + 1`, so `0` is loop exit. -/
def bn_greater_loop (pa pb : Ptr) : Nat → Option Int
  | 0 => some 0
  | i + 1 => do
    let x ← rd pa i
    let y ← rd pb i
    if x = y then bn_greater_loop pa pb i
    else pure (toInt32 (((y + U64 - x) % U64) &&& SIGN_BIT))

/-- The function `bn_greater`. -/
def bn_greater (a b : bn) : Option Int :=
  if bn_size a > bn_size b then some 1
  else bn_greater_loop a.ptr b.ptr (bn_size a)

/-- The macro `MAX`. -/
def MAX (a b : Nat) : Nat := if a > b then a else b

/-- First loop of `bn_add`, over the digits of `b`.  Arguments: iterations left, `i`, the
result pointer, `carry`. -/
def bn_add_loop1 (pa pb : Ptr) : Nat → Nat → Ptr → Nat → Option (Ptr × Nat)
  | 0, _, pr, carry => some (pr, carry)
  | n + 1, i, pr, carry => do
    let x ← rd pa i
    let y ← rd pb i
    let pr ← wr pr i ((x + y + carry) % U64)
    let carry := if (x + carry) % U64 > U64 - 1 - y ∨ x > U64 - 1 - carry then 1 else 0
    bn_add_loop1 pa pb n (i + 1) pr carry

/-- Second loop of `bn_add`, over the remaining digits up to `size`. -/
def bn_add_loop2 (pa : Ptr) : Nat → Nat → Ptr → Nat → Option (Ptr × Nat)
  | 0, _, pr, carry => some (pr, carry)
  | n + 1, i, pr, carry => do
    let x ← rd pa i
    let pr ← wr pr i ((x + carry) % U64)
    let carry := if carry > U64 - 1 - x then 1 else 0
    bn_add_loop2 pa n (i + 1) pr carry

/-- The function `bn_add`. -/
def bn_add (result a b : bn) : Option bn := do
  let size := MAX (bn_size a) (bn_size b)
  let result :=
    if bn_capacity result < (size + 1) % U32 then bn_resize result ((bn_size a + 1) % U32)
    else result
  let (pr, carry) ← bn_add_loop1 a.ptr b.ptr (bn_size b) 0 result.ptr 0
  let (pr, carry) ← bn_add_loop2 a.ptr (size - bn_size b) (bn_size b) pr carry
  let size := (size + carry) % U32
  if carry ≠ 0 then
    let pr ← wr pr ((size + U32 - 1) % U32) carry
    pure { ptr := pr, size := size, capacity := result.capacity }
  else
    pure { ptr := pr, size := size, capacity := result.capacity }

/-- The loop of `bn_sub`.  Arguments: iterations left, `i`, the result pointer, `borrow`. -/
def bn_sub_loop (pa pb : Ptr) (bsize : Nat) : Nat → Nat → Ptr → Nat → Option Ptr
  | 0, _, pr, _ => some pr
  | n + 1, i, pr, borrow => do
    let x ← rd pa i
    let sub ← if bsize > i then rd pb i else some 0
    let pr ← wr pr i ((x + U64 + U64 - sub - borrow) % U64)
    let borrow := if x < (sub + borrow) % U64 then 1 else 0
    bn_sub_loop pa pb bsize n (i + 1) pr borrow

/-- The function `bn_sub`. -/
def bn_sub (result a b : bn) : Option bn := do
  let result := if bn_capacity result < bn_size a then bn_resize result (bn_size a) else result
  let pr ← bn_sub_loop a.ptr b.ptr (bn_size b) (bn_size a) 0 result.ptr 0
  let top ← rd pr ((bn_size a + U32 - 1) % U32)
  pure { ptr := pr
         size := (bn_size a + U32 - (if top = 0 then 1 else 0)) % U32
         capacity := result.capacity }

/-- The function `bn_mul`: it only makes room for the product. -/
def bn_mul (result a b : bn) : bn :=
  if bn_capacity result < (bn_size a + bn_size b) % U32 then
    { bn_resize result ((bn_size a + bn_size b) % U32) with
      size := (bn_size a + bn_size b) % U32 }
  else result

/-- First loop of `bn_sll`, run downwards from `i = quot + k` to `i = quot + 1`; the argument
is `k = i - quot`. -/
def bn_sll_loop (quot rem : Nat) : Nat → Ptr → Option Ptr
  | 0, p => some p
  | k + 1, p => do
    let lo ← rd p k
    let rhs_bits ← shr64 lo (N_BITS - rem)
    let hi ← rd p (k + 1)
    let p ← wr p (quot + k + 1) (((hi <<< rem) % U64) ||| rhs_bits)
    bn_sll_loop quot rem k p

/-- The loop `for (; i >= 0; a->ptr[i--] = 0)`; the argument is `i + 1`. -/
def bn_sll_fill : Nat → Ptr → Option Ptr
  | 0, p => some p
  | i + 1, p => do
    let p ← wr p i 0
    bn_sll_fill i p

/-- The function `bn_sll`.  When the new size is zero, `i` starts at `-1`, which compares above
`quot` as an `unsigned long long`, and the first access is far outside the block. -/
def bn_sll (a : bn) (sha : Nat) : Option bn := do
  let quot := (sha % U64) >>> N_BITS_TZ
  let rem := (sha % U64) &&& (N_BITS - 1)
  let a :=
    if bn_capacity a < (bn_size a + quot + 1) % U64 then
      bn_resize a ((bn_size a + quot + 1) % U64)
    else a
  let top ← rd a.ptr ((a.size + U32 - 1) % U32)
  let lz ← builtin_clz top
  let size := (a.size + (quot + (if lz < rem then 1 else 0))) % U32
  if size = 0 then none
  else
    let i := size - 1
    let p ← bn_sll_loop quot rem (i - quot) a.ptr
    let i := min i quot
    let low ← rd p 0
    let p ← wr p i ((low <<< rem) % U64)
    let p ← bn_sll_fill i p
    pure { ptr := p, size := size, capacity := a.capacity }

/-- The constant `mask` of `bn_srl`, `(1 << rem) - 1` in `int` arithmetic: it has a value only
while `1 << rem` and its predecessor fit an `int`. -/
def bn_srl_mask (rem : Nat) : Option Nat :=
  if rem < 31 then some (2 ^ rem - 1) else none

/-- First loop of `bn_srl`.  Arguments: iterations left, `i`, the pointer. -/
def bn_srl_loop (quot rem : Nat) (mask : Option Nat) : Nat → Nat → Ptr → Option Ptr
  | 0, _, p => some p
  | n + 1, i, p => do
    let hi ← rd p (i + quot + 1)
    let m ← mask
    let lhs_bits ← shl64 (hi &&& m) (N_BITS - rem)
    let lo ← rd p (i + quot)
    let p ← wr p i (lhs_bits ||| (lo >>> rem))
    bn_srl_loop quot rem mask n (i + 1) p

/-- The loop `for (; i < bn_size(a); a->ptr[i++] = 0)`.  Arguments: iterations left, `i`. -/
def bn_srl_fill : Nat → Nat → Ptr → Option Ptr
  | 0, _, p => some p
  | n + 1, i, p => do
    let p ← wr p i 0
    bn_srl_fill n (i + 1) p

/-- The function `bn_srl`.  When `quot + 1` exceeds the size, the loop bound
`bn_size(a) - quot - 1` wraps around and the loop runs off the block. -/
def bn_srl (a : bn) (sha : Nat) : Option bn := do
  let quot := (sha % U64) >>> N_BITS_TZ
  let rem := (sha % U64) &&& (N_BITS - 1)
  let mask := bn_srl_mask rem
  if bn_size a < quot + 1 then none
  else
    let n := bn_size a - quot - 1
    let p ← bn_srl_loop quot rem mask n 0 a.ptr
    let top ← rd p (bn_size a - 1)
    let p ← wr p n (top >>> rem)
    let p ← bn_srl_fill (bn_size a - (n + 1)) (n + 1) p
    let last ← rd p (a.size - 1)
    let lz ← builtin_clzll last
    let drop := quot + (if N_BITS - lz ≤ rem then 1 else 0)
    pure { ptr := p, size := ((a.size + U64 - drop % U64) % U64) % U32, capacity := a.capacity }

/-! ## Hexadecimal rendering -/

/-- The macro `BUFSIZE` of `bn_hex`. -/
def BUFSIZE : Nat := 65536

/-- The macro `DIGITS` of `bn_hex`: hexadecimal digits per `unsigned long long`, `N_BITS >> 2`. -/
def DIGITS : Nat := N_BITS >>> 2

/-- The macro `MASK` of `bn_hex`. -/
def MASK : Nat := 15

/-- The terminating character of a C string. -/
def NUL : Char := Char.ofNat 0

/-- The string literal that `bn_hex` indexes with a nibble. -/
def HEXTAB : List Char := "0123456789ABCDEF".toList

/-- The write `buf[i] = c` into the text buffer. -/
def wrc (buf : List Char) (i : Nat) (c : Char) : Option (List Char) :=
  if i < buf.length then some (buf.set i c) else none

/-- The text a `char *` denotes: the characters before the first `NUL`. -/
def cstring (buf : List Char) : String :=
  String.mk (buf.takeWhile (fun c => c != NUL))

/-- The loop of `bn_hex` that finds the first non-zero hexadecimal digit of the top digit.
Arguments: iterations allowed, `tem`, `idx`; a non-zero `tem` needs fewer than sixteen. -/
def bn_hex_skip : Nat → Nat → Nat → Option (Nat × Nat)
  | 0, _, _ => none
  | f + 1, tem, idx =>
    if tem &&& (MASK <<< (N_BITS - 4)) ≠ 0 then some (tem, idx)
    else bn_hex_skip f ((tem <<< 4) % U64) (idx - 1)

/-- The inner loop of `bn_hex` over the nibbles of one digit.  Arguments: `DIGITS - j`, `tem`,
`idx`, the buffer. -/
def bn_hex_inner : Nat → Nat → Nat → List Char → Option (Nat × List Char)
  | 0, _, idx, buf => some (idx, buf)
  | n + 1, tem, idx, buf =>
    if idx = 0 then some (idx, buf)
    else do
      let buf ← wrc buf (idx - 1) (HEXTAB.getD (tem &&& MASK) NUL)
      bn_hex_inner n (tem >>> 4) (idx - 1) buf

/-- The outer loop of `bn_hex` over the digits.  Arguments: iterations left, `i`, `idx`, the
buffer. -/
def bn_hex_outer (p : Ptr) : Nat → Nat → Nat → List Char → Option (List Char)
  | 0, _, _, buf => some buf
  | n + 1, i, idx, buf => do
    let tem ← rd p i
    let (idx, buf) ← bn_hex_inner DIGITS tem idx buf
    bn_hex_outer p n (i + 1) idx buf

/-- The call `kzalloc(n * sizeof(char), GFP_KERNEL)`: a buffer of `n` zeroed characters. -/
def kzalloc (n : Nat) : List Char := List.replicate n NUL

/-- The statements of `bn_hex` that follow the allocation of `buf`; the result is the text that
the returned `char *` denotes. -/
def bn_hex_body (a : bn) (buf : List Char) : Option String := do
  let idx := bn_size a * DIGITS
  let tem ← rd a.ptr ((bn_size a + U32 - 1) % U32)
  if tem = 0 then
    let buf ← wrc buf 0 (Char.ofNat 48)
    pure (cstring buf)
  else
    let (_, idx) ← bn_hex_skip DIGITS tem idx
    let buf ← wrc buf idx NUL
    let buf ← bn_hex_outer a.ptr (bn_size a) 0 idx buf
    pure (cstring buf)

/-- The function `bn_hex`: it allocates the zeroed buffer and fills it. -/
def bn_hex (a : bn) : Option String :=
  bn_hex_body a (kzalloc BUFSIZE)

/-! ## The fast-doubling `fib_sequence` (built with `BN` and `FAST`) -/

/-- Modelled from the spec: the macro `BITS` is not defined in the sources (it is passed to the
compiler); the native accumulator and the index are 64 bits wide. -/
def BITS : Nat := 64

/-- The local digit stores of the fast-doubling `fib_sequence`. -/
structure FastRegs where
  fcur : bn
  fnext : bn
  t1 : bn
  t2 : bn
  fnext2 : bn
  fcur_sqrt : bn
  fnext_sqrt : bn
  tem : bn
deriving DecidableEq

/-- The body of the doubling loop of `fib_sequence`.  The call `bn_sll(&fnext2, &fnext, 1)` has
three operands while `bignum.h` declares `bn_sll` with two; the three-operand shift is the
parameter `sll3`, from the destination, the source and the count to the new destination. -/
def fib_fast_body (sll3 : bn → bn → Nat → Option bn) (k mask : Nat) (r : FastRegs) :
    Option FastRegs := do
  let fnext2 ← sll3 r.fnext2 r.fnext 1
  let tem ← bn_sub r.tem fnext2 r.fcur
  let t1 := bn_mul r.t1 tem r.fcur
  let fcur_sqrt := bn_mul r.fcur_sqrt r.fcur r.fcur
  let fnext_sqrt := bn_mul r.fnext_sqrt r.fnext r.fnext
  let t2 ← bn_add r.t2 fcur_sqrt fnext_sqrt
  let (fcur, t1) := bn_swap r.fcur t1
  let (fnext, t2) := bn_swap r.fnext t2
  if k &&& mask ≠ 0 then
    let t1 ← bn_add t1 fcur fnext
    let (fcur, fnext) := bn_swap fcur fnext
    let (fnext, t1) := bn_swap fnext t1
    pure { fcur := fcur, fnext := fnext, t1 := t1, t2 := t2, fnext2 := fnext2,
           fcur_sqrt := fcur_sqrt, fnext_sqrt := fnext_sqrt, tem := tem }
  else
    pure { fcur := fcur, fnext := fnext, t1 := t1, t2 := t2, fnext2 := fnext2,
           fcur_sqrt := fcur_sqrt, fnext_sqrt := fnext_sqrt, tem := tem }

/-- The loop `for (; mask; mask >>= 1)`.  The first argument bounds the number of iterations; a
64-bit `mask` is zero after at most 64 halvings. -/
def fib_fast_loop (sll3 : bn → bn → Nat → Option bn) (k : Nat) :
    Nat → Nat → FastRegs → Option FastRegs
  | 0, _, _ => none
  | f + 1, mask, r =>
    if mask = 0 then some r
    else do
      let r ← fib_fast_body sll3 k mask r
      fib_fast_loop sll3 k f (mask >>> 1) r

/-- The initial `mask` of `fib_sequence`: `1ull << (BITS - 1)` shifted right by
`__builtin_clzll(k) + 1`.  It has no value for `k = 0` (count of leading zeros of zero) nor for
`k = 1` (shift by 64). -/
def fib_fast_mask (k : Nat) : Option Nat := do
  let lz ← builtin_clzll k
  shr64 (2 ^ (BITS - 1)) ((lz + 1) % U32)

/-- The function `fib_sequence` of the `BN` and `FAST` build, for an index `k ≥ 0`.  `mask` is
computed first, as in the source, and read only by the loop. -/
def fib_sequence_fast (sll3 : bn → bn → Nat → Option bn) (k : Nat) : Option String := do
  let mask := fib_fast_mask k
  let fcur ← bn_assign bn_init 1
  let fnext ← bn_assign bn_init 1
  if k ≤ 1 then
    let fcur ← bn_assign fcur k
    bn_hex fcur
  else
    let mask ← mask
    let r ← fib_fast_loop sll3 k (N_BITS + 1) mask
      { fcur := fcur, fnext := fnext, t1 := bn_init, t2 := bn_init, fnext2 := bn_init,
        fcur_sqrt := bn_init, fnext_sqrt := bn_init, tem := bn_init }
    bn_hex r.fcur

/-! ## The additive `fib_sequence` (built with `BN`, without `FAST`) -/

/-- The loop `for (int i = 0; i < k; i++)` of the additive `fib_sequence`, on the registers
`fcur`, `fnext` and `r`; the first argument is the number of rounds left. -/
def fib_bn_loop : Nat → bn → bn → bn → Option (bn × bn × bn)
  | 0, fcur, fnext, r => some (fcur, fnext, r)
  | n + 1, fcur, fnext, r => do
    let r ← bn_add r fnext fcur
    let (fcur, fnext) := bn_swap fcur fnext
    let (fnext, r) := bn_swap fnext r
    fib_bn_loop n fcur fnext r

/-- The function `fib_sequence` of the `BN` build without `FAST`, for an index `k ≥ 0`. -/
def fib_sequence_bn (k : Nat) : Option String := do
  let fcur ← bn_assign bn_init 0
  let fnext ← bn_assign bn_init 1
  let (fcur, _, _) ← fib_bn_loop k fcur fnext bn_init
  bn_hex fcur

/-! ## The native `fib_sequence` (built without `BN`) -/

/-- The value of a 64-bit pattern read as a `long long`. -/
def toInt64 (x : Nat) : Int :=
  if x % U64 < 2 ^ 63 then ((x % U64 : Nat) : Int) else ((x % U64 : Nat) : Int) - (U64 : Int)

/-- The loop of the native `fib_sequence`.  The first argument is `BITS - off`, the number of
rounds left, so that the bit tested, `BITS - 1 - off`, is the number of rounds left after this
one.  `fcur` and `fnext` are the 64-bit patterns of the two `long long` variables; their
arithmetic wraps modulo `2 ^ 64`. -/
def fib_native_loop (k : Nat) : Nat → Nat → Nat → Nat × Nat
  | 0, fcur, fnext => (fcur, fnext)
  | n + 1, fcur, fnext =>
    let t1 := (fcur * (((fnext <<< 1) % U64 + U64 - fcur) % U64)) % U64
    let t2 := (fcur * fcur + fnext * fnext) % U64
    let mask := (((k >>> n) &&& 1) + U64 - 1) % U64
    let fcur := ((t1 &&& mask) + (t2 &&& (U64 - 1 - mask))) % U64
    let fnext := (t2 + (t1 &&& (U64 - 1 - mask))) % U64
    fib_native_loop k n fcur fnext

/-- The function `fib_sequence` of the build without `BN`, for an index `k ≥ 0`. -/
def fib_sequence (k : Nat) : Option Int :=
  if k = 0 then some 0
  else do
    let lz ← builtin_clzll k
    pure (toInt64 (fib_native_loop k (BITS - (lz + 1)) 1 1).1)

/-! ## The seek operation of the device -/

/-- The macro `MAX_LENGTH`. -/
def MAX_LENGTH : Nat := 10000

/-- The part of `struct file` that `fib_device_lseek` uses: the file position. -/
structure file where
  f_pos : Int
deriving DecidableEq

/-- A sum or difference of two `loff_t` values, wrapped into the range of a signed 64-bit
integer. -/
def wrap64 (x : Int) : Int :=
  (x + 2 ^ 63) % 2 ^ 64 - 2 ^ 63

/-- The function `fib_device_lseek`: the file with its new position, and the value returned. -/
def fib_device_lseek (f : file) (offset : Int) (orig : Int) : file × Int :=
  let new_pos : Int :=
    if orig = 0 then offset
    else if orig = 1 then wrap64 (f.f_pos + offset)
    else if orig = 2 then wrap64 ((MAX_LENGTH : Int) - offset)
    else 0
  let new_pos : Int := if new_pos > (MAX_LENGTH : Int) then (MAX_LENGTH : Int) else new_pos
  let new_pos : Int := if new_pos < 0 then 0 else new_pos
  ({ f_pos := new_pos }, new_pos)

/-! ## What a store represents -/

/-- All slots of a list, when every one of them has been written. -/
def collect : List (Option Nat) → Option (List Nat)
  | [] => some []
  | x :: xs => do
    let v ← x
    let vs ← collect xs
    pure (v :: vs)

/-- The digits of a store, least significant first: its first `size` slots. -/
def bn.digits (a : bn) : Option (List Nat) :=
  match a.ptr with
  | none => if a.size = 0 then some [] else none
  | some b => if a.size ≤ b.length then collect (b.take a.size) else none

/-- The natural number a store represents: its digits in base `2 ^ 64`. -/
def bn.value (a : bn) : Option Nat :=
  (bn.digits a).map (Nat.ofDigits U64)

/-- The uppercase hexadecimal numeral of a natural number, most significant digit first. -/
def hexNumeral (n : Nat) : String :=
  if n = 0 then "0" else String.mk (((Nat.digits 16 n).reverse).map (fun d => HEXTAB.getD d NUL))

/-- The store with the given digits and capacity, every slot written. -/
def bn.ofDigits (ds : List Nat) : bn :=
  { ptr := some (ds.map some), size := ds.length, capacity := ds.length }

/-- A store whose bookkeeping agrees with its block: `capacity` is the number of slots of the
block, and zero for `NULL`. -/
def bn.wf (a : bn) : Prop :=
  match a.ptr with
  | none => a.capacity = 0
  | some blk => blk.length = a.capacity

/-- The two conventions for the representation of zero. -/
inductive ZeroConv where
  | lengthZero
  | oneZeroDigit
deriving DecidableEq

/-- The digits of the canonical zero under a convention. -/
def zeroDigits : ZeroConv → List Nat
  | ZeroConv.lengthZero => []
  | ZeroConv.oneZeroDigit => [0]

/-- A store is normalized under a convention when its digits are written 64-bit words and
either the top digit is non-zero or the digits are those of the canonical zero. -/
def bn.isNormalized (c : ZeroConv) (a : bn) : Bool :=
  match a.digits with
  | none => false
  | some ds =>
    ds.all (fun d => decide (d < U64)) &&
      ((!ds.isEmpty && ds.getLast? != some 0) || ds == zeroDigits c)

/-- The invariant of the two loops of `bn_add` before digit `i`: the first `i` slots of the
result block hold 64-bit words `ws`, the carry is 0 or 1, and `ws` with the carry on top is the
sum of the first `i` digits of `a` and of `b`. -/
def AddInv (da db : List Nat) (i : Nat) (blk : Block) (c : Nat) : Prop :=
  ∃ ws : List Nat, blk.take i = ws.map some ∧ ws.length = i ∧ (∀ w ∈ ws, w < U64) ∧ c ≤ 1 ∧
    Nat.ofDigits U64 ws + U64 ^ i * c
      = Nat.ofDigits U64 (da.take i) + Nat.ofDigits U64 (db.take i)

/-! ## Hexadecimal digits of a value -/

/-- The character `bn_hex` writes for the nibble `d`. -/
def hexChar (d : Nat) : Char := HEXTAB.getD d NUL

/-- The `m` least significant hexadecimal digits of `v`, least significant first. -/
def nibbles : Nat → Nat → List Nat
  | 0, _ => []
  | m + 1, v => v % 16 :: nibbles m (v / 16)

/-- The sixteen nibbles of every digit of a store, in the order `bn_hex` visits them. -/
def nibbleStream : List Nat → List Nat
  | [] => []
  | d :: ds => nibbles 16 d ++ nibbleStream ds

/-! ## The hexadecimal renderer is correct -/

theorem wrc_spec {buf buf' : List Char} {i : Nat} {c : Char} (h : wrc buf i c = some buf') :
    i < buf.length ∧ buf'.length = buf.length ∧ buf'.drop i = c :: buf.drop (i + 1) := by
  unfold wrc at h
  split at h
  · rename_i hi
    cases h
    refine ⟨hi, by simp, ?_⟩
    rw [List.drop_set, if_neg (Nat.lt_irrefl i), Nat.sub_self, List.drop_eq_getElem_cons hi]
    rfl
  · cases h

/-- A buffer write inside the buffer succeeds. -/
theorem wrc_some {buf : List Char} {i : Nat} (c : Char) (h : i < buf.length) :
    ∃ buf', wrc buf i c = some buf' := by
  unfold wrc
  simp [h]

/-- The inner loop of `bn_hex` writes the nibbles of `tem`, least significant first, downwards from
`idx`, and stops after `n` nibbles or when `idx` reaches zero. -/
theorem bn_hex_inner_spec (n : Nat) : ∀ (tem idx : Nat) (buf : List Char), idx ≤ buf.length →
    ∃ buf', bn_hex_inner n tem idx buf = some (idx - ((nibbles n tem).take idx).length, buf') ∧
      buf'.length = buf.length ∧
      buf'.drop (idx - ((nibbles n tem).take idx).length)
        = (((nibbles n tem).take idx).map hexChar).reverse ++ buf.drop idx := by
  induction n with
  | zero =>
    intro tem idx buf _
    exact ⟨buf, by simp [bn_hex_inner, nibbles]⟩
  | succ n ih =>
    intro tem idx buf hle
    cases idx with
    | zero => exact ⟨buf, by simp [bn_hex_inner, nibbles]⟩
    | succ j =>
      obtain ⟨b1, hb1⟩ := wrc_some (HEXTAB.getD (tem &&& MASK) NUL) (Nat.lt_of_succ_le hle)
      obtain ⟨_, hlen1, hdrop1⟩ := wrc_spec hb1
      obtain ⟨b2, hb2, hlen2, hdrop2⟩ := ih (tem >>> 4) j b1 (by omega)
      refine ⟨b2, ?_, by omega, ?_⟩
      · have hm : tem &&& MASK = tem % 16 := Nat.and_pow_two_sub_one_eq_mod tem 4
        have hs : tem >>> 4 = tem / 16 := Nat.shiftRight_eq_div_pow tem 4
        simp only [bn_hex_inner, Nat.add_sub_cancel, nibbles, List.take_succ_cons,
          List.length_cons]
        simp only [Nat.succ_ne_zero, if_false]
        rw [hb1]
        simp only [Option.bind_eq_bind, Option.some_bind]
        rw [hb2, hs]
        congr 2
        omega
      · have hs : tem >>> 4 = tem / 16 := Nat.shiftRight_eq_div_pow tem 4
        have hm : tem &&& MASK = tem % 16 := Nat.and_pow_two_sub_one_eq_mod tem 4
        rw [hs] at hdrop2
        simp only [nibbles, List.take_succ_cons, List.length_cons, List.map_cons,
          List.reverse_cons, List.append_assoc, List.singleton_append]
        have : j + 1 - (((nibbles n (tem / 16)).take j).length + 1)
            = j - ((nibbles n (tem / 16)).take j).length := by omega
        rw [this, hdrop2, hdrop1, hm]
        rfl

/-- There are exactly `m` nibbles in `nibbles m v`. -/
theorem nibbles_length (m : Nat) : ∀ v, (nibbles m v).length = m := by
  induction m with
  | zero => intro v; rfl
  | succ m ih => intro v; simp [nibbles, ih]

/-- The outer loop of `bn_hex` writes the first `idx` nibbles of the digits it visits, below the
characters already in the buffer from `idx` on. -/
theorem bn_hex_outer_spec (p : Ptr) (rest : List Nat) :
    ∀ (i idx : Nat) (buf : List Char), idx ≤ buf.length →
      (∀ j, j < rest.length → rd p (i + j) = rest[j]?) →
      ∃ buf', bn_hex_outer p rest.length i idx buf = some buf' ∧
        buf'.length = buf.length ∧
        buf'.drop (idx - ((nibbleStream rest).take idx).length)
          = (((nibbleStream rest).take idx).map hexChar).reverse ++ buf.drop idx := by
  induction rest with
  | nil =>
    intro i idx buf _ _
    exact ⟨buf, by simp [bn_hex_outer, nibbleStream]⟩
  | cons d rest ih =>
    intro i idx buf hle hrd
    have h0 : rd p i = some d := by simpa using hrd 0 (by simp)
    obtain ⟨b1, hb1, hlen1, hdrop1⟩ := bn_hex_inner_spec 16 d idx buf hle
    have hrd1 : ∀ j, j < rest.length → rd p (i + 1 + j) = rest[j]? := by
      intro j hj
      have := hrd (j + 1) (by simp; omega)
      simpa [Nat.add_assoc, Nat.add_comm 1 j] using this
    obtain ⟨b2, hb2, hlen2, hdrop2⟩ :=
      ih (i + 1) (idx - ((nibbles 16 d).take idx).length) b1 (by omega) hrd1
    have hl16 : ((nibbles 16 d).take idx).length = min idx 16 := by
      simp [nibbles_length]
    have htake : (nibbleStream (d :: rest)).take idx
        = (nibbles 16 d).take idx ++ (nibbleStream rest).take (idx - min idx 16) := by
      have : idx - min idx 16 = idx - 16 := by omega
      rw [this]
      simp [nibbleStream, List.take_append_eq_append_take, nibbles_length]
    refine ⟨b2, ?_, by omega, ?_⟩
    · have hD : DIGITS = 16 := rfl
      simp only [List.length_cons, bn_hex_outer, h0, Option.bind_eq_bind, Option.some_bind, hD,
        hb1, hb2]
    · rw [htake]
      rw [hl16] at hdrop2 hdrop1
      simp only [List.length_append, List.map_append, List.reverse_append, List.append_assoc]
      rw [← hdrop1, ← hdrop2, hl16]
      congr 1
      omega

/-- The test of `bn_hex` on the top nibble: for a 64-bit `tem` it holds exactly when `tem` has a
bit at or above position 60. -/
theorem and_top_nibble (tem : Nat) (h : tem < U64) :
    (tem &&& (MASK <<< (N_BITS - 4)) ≠ 0) ↔ 2 ^ 60 ≤ tem := by
  have key : tem &&& (MASK <<< (N_BITS - 4)) = (tem >>> 60) <<< 60 := by
    apply Nat.eq_of_testBit_eq
    intro i
    have hM : MASK = 2 ^ 4 - 1 := rfl
    have hN : N_BITS - 4 = 60 := rfl
    rw [hM, hN]
    simp only [Nat.testBit_and, Nat.testBit_shiftLeft, Nat.testBit_two_pow_sub_one,
      Nat.testBit_shiftRight]
    by_cases hi : 60 ≤ i
    · by_cases hi2 : i - 60 < 4
      · simp [hi, hi2, Nat.add_sub_cancel' hi]
      · have : tem.testBit i = false := by
          apply Nat.testBit_lt_two_pow
          calc tem < 2 ^ 64 := h
            _ ≤ 2 ^ i := Nat.pow_le_pow_right (by norm_num) (by omega)
        simp [hi, hi2, this, Nat.add_sub_cancel' hi]
    · simp [hi]
  rw [key, Nat.shiftLeft_eq, Nat.shiftRight_eq_div_pow]
  constructor
  · intro hne
    by_contra hlt
    apply hne
    rw [Nat.div_eq_of_lt (by omega)]
  · intro hge hz
    have : 1 ≤ tem / 2 ^ 60 := (Nat.le_div_iff_mul_le (by norm_num)).2 (by omega)
    have h2 : 0 < tem / 2 ^ 60 * 2 ^ 60 := Nat.mul_pos this (by norm_num)
    omega

/-- The skipping loop of `bn_hex` ends within its sixteen iterations on a non-zero digit: after `s`
shifts by four bits the top nibble is non-zero and nothing has been shifted out. -/
theorem bn_hex_skip_spec (f : Nat) : ∀ (tem idx : Nat), 0 < tem → tem < U64 →
    2 ^ 60 ≤ tem * 16 ^ (f - 1) → 0 < f →
    ∃ s tem', bn_hex_skip f tem idx = some (tem', idx - s) ∧ s < f ∧
      2 ^ 60 ≤ tem * 16 ^ s ∧ tem * 16 ^ s < U64 := by
  induction f with
  | zero => intro tem idx _ _ _ hf; omega
  | succ f ih =>
    intro tem idx hpos hlt hfuel _
    by_cases htop : 2 ^ 60 ≤ tem
    · refine ⟨0, tem, ?_, by omega, by simpa using htop, by simpa using hlt⟩
      have := (and_top_nibble tem hlt).2 htop
      simp [bn_hex_skip, this]
    · have htest : ¬ (tem &&& (MASK <<< (N_BITS - 4)) ≠ 0) := fun hc =>
        htop ((and_top_nibble tem hlt).1 hc)
      have hf : 0 < f := by
        rcases Nat.eq_zero_or_pos f with h0 | h0
        · subst h0; simp at hfuel; omega
        · exact h0
      have hU : U64 = 2 ^ 64 := rfl
      have hsh : (tem <<< 4) % U64 = tem * 16 := by
        rw [Nat.shiftLeft_eq, hU]
        apply Nat.mod_eq_of_lt
        omega
      have hfuel2 : 2 ^ 60 ≤ tem * 16 * 16 ^ (f - 1) := by
        have : 16 ^ (f + 1 - 1) = 16 * 16 ^ (f - 1) := by
          rw [Nat.add_sub_cancel, ← Nat.pow_succ']
          congr 1; omega
        rw [this] at hfuel
        rw [Nat.mul_assoc]; exact hfuel
      obtain ⟨s, tem', hs, hsf, hlo, hhi⟩ :=
        ih (tem * 16) (idx - 1) (by omega) (by rw [hU]; omega) hfuel2 hf
      refine ⟨s + 1, tem', ?_, by omega, ?_, ?_⟩
      · simp only [bn_hex_skip, if_neg htest, hsh, hs]
        congr 2
        omega
      · have e : tem * 16 ^ (s + 1) = tem * 16 * 16 ^ s := by ring
        rw [e]; exact hlo
      · have e : tem * 16 ^ (s + 1) = tem * 16 * 16 ^ s := by ring
        rw [e]; exact hhi

/-- The first `k` of the `m` low nibbles are the `k` low nibbles. -/
theorem nibbles_take (m : Nat) : ∀ (k v : Nat), k ≤ m → (nibbles m v).take k = nibbles k v := by
  induction m with
  | zero => intro k v hk; have : k = 0 := by omega
            subst this; rfl
  | succ m ih =>
    intro k v hk
    cases k with
    | zero => rfl
    | succ k => simp [nibbles, ih k (v / 16) (by omega)]

/-- Every nibble is below sixteen. -/
theorem nibbles_lt (m : Nat) : ∀ (v d : Nat), d ∈ nibbles m v → d < 16 := by
  induction m with
  | zero => intro v d hd; simp [nibbles] at hd
  | succ m ih =>
    intro v d hd
    simp only [nibbles, List.mem_cons] at hd
    rcases hd with rfl | hd
    · exact Nat.mod_lt _ (by norm_num)
    · exact ih _ _ hd

/-- The low `a + b` nibbles are the low `a` nibbles followed by the low `b` nibbles of the quotient
by `16 ^ a`. -/
theorem nibbles_append (a : Nat) : ∀ (b v : Nat),
    nibbles (a + b) v = nibbles a v ++ nibbles b (v / 16 ^ a) := by
  induction a with
  | zero => intro b v; simp [nibbles]
  | succ a ih =>
    intro b v
    have e : a + 1 + b = (a + b) + 1 := by omega
    rw [e]
    simp only [nibbles, List.cons_append, ih b (v / 16)]
    congr 2
    rw [Nat.div_div_eq_div_mul, Nat.pow_succ']

/-- The low `a` nibbles do not see multiples of `16 ^ a`. -/
theorem nibbles_add_mul (a : Nat) : ∀ (x y : Nat), nibbles a (x + 16 ^ a * y) = nibbles a x := by
  induction a with
  | zero => intro x y; rfl
  | succ a ih =>
    intro x y
    have e1 : (x + 16 ^ (a + 1) * y) % 16 = x % 16 := by
      rw [Nat.pow_succ', Nat.mul_assoc, Nat.add_mul_mod_self_left]
    have e2 : (x + 16 ^ (a + 1) * y) / 16 = x / 16 + 16 ^ a * y := by
      rw [Nat.pow_succ', Nat.mul_assoc, Nat.add_mul_div_left _ _ (by norm_num : 0 < 16)]
    simp only [nibbles, e1, e2, ih]

/-- The nibbles of the digits, digit after digit, are the low nibbles of the value of the digits. -/
theorem nibbleStream_eq (ds : List Nat) (h : ∀ d ∈ ds, d < U64) :
    nibbleStream ds = nibbles (16 * ds.length) (Nat.ofDigits U64 ds) := by
  induction ds with
  | nil => rfl
  | cons d ds ih =>
    have hd : d < U64 := h d (by simp)
    have hU : U64 = 16 ^ 16 := by norm_num [U64]
    have e : 16 * (d :: ds).length = 16 + 16 * ds.length := by simp; omega
    rw [e, nibbles_append, Nat.ofDigits_cons, nibbleStream, ih (fun x hx => h x (by simp [hx]))]
    rw [hU, nibbles_add_mul]
    congr 2
    rw [Nat.add_mul_div_left _ _ (by norm_num : 0 < 16 ^ 16), Nat.div_eq_of_lt (hU ▸ hd)]
    simp

/-- For a value of exactly `m + 1` hexadecimal digits, its `m + 1` low nibbles are its digits in base
sixteen. -/
theorem nibbles_eq_digits (m : Nat) : ∀ v, 16 ^ m ≤ v → v < 16 ^ (m + 1) →
    nibbles (m + 1) v = Nat.digits 16 v := by
  induction m with
  | zero =>
    intro v h1 h2
    have hv : v % 16 = v := Nat.mod_eq_of_lt (by simpa using h2)
    rw [Nat.digits_of_lt 16 v (by simp at h1; omega) (by simpa using h2)]
    simp [nibbles, hv]
  | succ m ih =>
    intro v h1 h2
    have hpos : 0 < v := lt_of_lt_of_le (by positivity) h1
    rw [Nat.digits_def' (by norm_num) hpos]
    have h3 : 16 ^ m ≤ v / 16 := by
      rw [Nat.le_div_iff_mul_le (by norm_num)]
      calc 16 ^ m * 16 = 16 ^ (m + 1) := by ring
        _ ≤ v := h1
    have h4 : v / 16 < 16 ^ (m + 1) := by
      rw [Nat.div_lt_iff_lt_mul (by norm_num)]
      calc v < 16 ^ (m + 1 + 1) := h2
        _ = 16 ^ (m + 1) * 16 := by ring
    rw [← ih (v / 16) h3 h4]
    rfl

/-- No hexadecimal digit is rendered as the terminating character. -/
theorem hexChar_ne_NUL (d : Nat) (h : d < 16) : hexChar d ≠ NUL := by
  interval_cases d <;> decide

/-- Slots can be collected only when every one of them has been written. -/
theorem collect_eq_some : ∀ (l : List (Option Nat)) (ds : List Nat),
    collect l = some ds → l = ds.map some := by
  intro l
  induction l with
  | nil => intro ds h; simp [collect] at h; subst h; rfl
  | cons x xs ih =>
    intro ds h
    cases x with
    | none => simp [collect] at h
    | some v =>
      cases hc : collect xs with
      | none => simp [collect, hc] at h
      | some vs =>
        simp [collect, hc] at h
        subst h
        simp [← ih vs hc]

/-- The digits of a store are what reads of its first `size` slots return. -/
theorem digits_rd (a : bn) (ds : List Nat) (hd : a.digits = some ds) (h1 : 1 ≤ a.size) :
    ds.length = a.size ∧ ∀ j, j < ds.length → rd a.ptr j = ds[j]? := by
  unfold bn.digits at hd
  cases hp : a.ptr with
  | none => rw [hp] at hd; simp at hd; omega
  | some blk =>
    rw [hp] at hd
    simp only at hd
    split at hd
    · rename_i hle
      have hc := collect_eq_some _ _ hd
      have hlen : ds.length = a.size := by
        have := congrArg List.length hc
        simp at this
        omega
      refine ⟨hlen, ?_⟩
      intro j hj
      have e1 : (blk.take a.size)[j]? = blk[j]? := by
        rw [List.getElem?_take]
        simp [hlen ▸ hj]
      rw [hc] at e1
      simp only [rd, List.get?_eq_getElem?]
      rw [← e1]
      simp [hj]
    · cases hd

/-- A buffer holding characters other than `NUL` followed by a `NUL` denotes those characters. -/
theorem cstring_rendered (w : List Char) (k : Nat) (hw : ∀ c ∈ w, c ≠ NUL) :
    cstring (w ++ List.replicate (k + 1) NUL) = String.mk w := by
  unfold cstring
  rw [List.takeWhile_append_of_pos (by intro c hc; simpa using hw c hc)]
  simp [List.replicate_succ]

/-- The path of `bn_hex` for a zero top digit. -/
theorem bn_hex_body_zero (a : bn) (buf0 buf1 : List Char)
    (htop : rd a.ptr ((bn_size a + U32 - 1) % U32) = some 0)
    (hwrc : wrc buf0 0 (Char.ofNat 48) = some buf1) :
    bn_hex_body a buf0 = some (cstring buf1) := by
  unfold bn_hex_body
  simp only [htop, Option.bind_eq_bind, Option.some_bind, if_true, hwrc, Option.pure_def]

/-- The path of `bn_hex` for a non-zero top digit. -/
theorem bn_hex_body_nonzero (a : bn) (top tem' idx0 : Nat) (buf0 buf1 buf2 : List Char)
    (htop : rd a.ptr ((bn_size a + U32 - 1) % U32) = some top) (ht0 : ¬ top = 0)
    (hskip : bn_hex_skip DIGITS top (bn_size a * DIGITS) = some (tem', idx0))
    (hwrc : wrc buf0 idx0 NUL = some buf1)
    (hout : bn_hex_outer a.ptr (bn_size a) 0 idx0 buf1 = some buf2) :
    bn_hex_body a buf0 = some (cstring buf2) := by
  unfold bn_hex_body
  simp only [htop, Option.bind_eq_bind, Option.some_bind, if_neg ht0, hskip, hwrc, hout,
    Option.pure_def]

/-- A buffer from `kzalloc` has the requested length. -/
theorem kzalloc_length (n : Nat) : (kzalloc n).length = n := by
  simp [kzalloc]

/-- Correctness of `bn_hex`: for a store of 1 to 4095 written digits below `2 ^ 64` that is the single
digit 0 or has a non-zero top digit, the text returned is the hexadecimal numeral of its value. -/
theorem bn_hex_spec (a : bn) (ds : List Nat) (hd : a.digits = some ds)
    (hw : ∀ d ∈ ds, d < U64) (h1 : 1 ≤ a.size) (h2 : a.size ≤ 4095)
    (hn : ds = [0] ∨ ds.getLast? ≠ some 0) :
    bn_hex a = some (hexNumeral (Nat.ofDigits U64 ds)) := by
  obtain ⟨hlen, hrd⟩ := digits_rd a ds hd h1
  have hne : ds ≠ [] := by
    intro h; rw [h] at hlen; simp at hlen; omega
  obtain ⟨init, top, rfl⟩ : ∃ init top, ds = init ++ [top] :=
    ⟨ds.dropLast, ds.getLast hne, (List.dropLast_append_getLast hne).symm⟩
  have hilen : init.length + 1 = a.size := by simpa using hlen
  have htop : rd a.ptr ((bn_size a + U32 - 1) % U32) = some top := by
    have e : (bn_size a + U32 - 1) % U32 = init.length := by
      unfold bn_size U32; omega
    rw [e, hrd init.length (by simp)]
    simp
  have htlt : top < U64 := hw top (by simp)
  have hV : Nat.ofDigits U64 (init ++ [top])
      = Nat.ofDigits U64 init + U64 ^ init.length * top := by
    rw [Nat.ofDigits_append]; simp
  have hL : Nat.ofDigits U64 init < U64 ^ init.length :=
    Nat.ofDigits_lt_base_pow_length (by norm_num [U64]) (fun x hx => hw x (by simp [hx]))
  have hbuf : (kzalloc BUFSIZE).length = 65536 := kzalloc_length _
  by_cases ht0 : top = 0
  · subst ht0
    have hds : init = [] := by
      rcases hn with h | h
      · have := congrArg List.length h
        simp at this
        exact this
      · simp at h
    subst hds
    have hb : wrc (kzalloc BUFSIZE) 0 (Char.ofNat 48)
        = some ([Char.ofNat 48] ++ List.replicate (65534 + 1) NUL) := by
      unfold wrc
      rw [if_pos (by rw [hbuf]; norm_num)]
      have : kzalloc BUFSIZE = List.replicate (65534 + 1 + 1) NUL := rfl
      rw [this, List.replicate_succ]
      rfl
    unfold bn_hex
    rw [bn_hex_body_zero a _ _ htop hb,
      cstring_rendered _ _ (by intro c hc; simp at hc; subst hc; decide)]
    simp [hexNumeral]
  · have hDIG : DIGITS = 16 := rfl
    obtain ⟨s, tem', hskip, hs, hlo, hhi⟩ :=
      bn_hex_skip_spec 16 top (bn_size a * DIGITS) (Nat.pos_of_ne_zero ht0) htlt
        (by
          have : 1 ≤ top := Nat.pos_of_ne_zero ht0
          calc 2 ^ 60 = 1 * 16 ^ (16 - 1) := by norm_num
            _ ≤ top * 16 ^ (16 - 1) := Nat.mul_le_mul_right _ this) (by norm_num)
    -- bounds on the top digit
    have hU : U64 = 16 ^ 16 := by norm_num [U64]
    have hlo' : 16 ^ (15 - s) ≤ top := by
      have e : (2 : Nat) ^ 60 = 16 ^ (15 - s) * 16 ^ s := by
        rw [← Nat.pow_add]
        have : 15 - s + s = 15 := by omega
        rw [this]; norm_num
      rw [e] at hlo
      exact Nat.le_of_mul_le_mul_right hlo (by positivity)
    have hhi' : top < 16 ^ (16 - s) := by
      have e : U64 = 16 ^ (16 - s) * 16 ^ s := by
        rw [← Nat.pow_add]
        have : 16 - s + s = 16 := by omega
        rw [this, hU]
      rw [e] at hhi
      exact Nat.lt_of_mul_lt_mul_right hhi
    generalize hVdef : Nat.ofDigits U64 (init ++ [top]) = V at hV ⊢
    generalize hidx0 : bn_size a * DIGITS - s = idx0 at hskip
    have hidx : idx0 = 16 * init.length + (15 - s) + 1 := by
      rw [← hidx0, hDIG]; unfold bn_size; omega
    have hUp : U64 ^ init.length = 16 ^ (16 * init.length) := by
      rw [hU, ← Nat.pow_mul]
    have hVlo : 16 ^ (16 * init.length + (15 - s)) ≤ V := by
      rw [hV, hUp, Nat.pow_add]
      calc 16 ^ (16 * init.length) * 16 ^ (15 - s)
          ≤ 16 ^ (16 * init.length) * top := Nat.mul_le_mul_left _ hlo'
        _ ≤ _ := Nat.le_add_left _ _
    have hVhi : V < 16 ^ (16 * init.length + (15 - s) + 1) := by
      rw [hV, hUp]
      rw [hUp] at hL
      have e : 16 * init.length + (15 - s) + 1 = 16 * init.length + (16 - s) := by omega
      rw [e, Nat.pow_add]
      calc Nat.ofDigits U64 init + 16 ^ (16 * init.length) * top
          < 16 ^ (16 * init.length) + 16 ^ (16 * init.length) * top :=
            Nat.add_lt_add_right hL _
        _ = 16 ^ (16 * init.length) * (top + 1) := by ring
        _ ≤ 16 ^ (16 * init.length) * 16 ^ (16 - s) := Nat.mul_le_mul_left _ hhi'
    have hVne : V ≠ 0 := by
      have : 0 < 16 ^ (16 * init.length + (15 - s)) := by positivity
      omega
    -- the written characters
    have hidxlt : idx0 < 65536 := by
      rw [← hidx0, hDIG]; unfold bn_size; omega
    have hwrc : wrc (kzalloc BUFSIZE) idx0 NUL = some (kzalloc BUFSIZE) := by
      unfold wrc
      rw [if_pos (by rw [hbuf]; exact hidxlt)]
      unfold kzalloc
      rw [List.set_replicate_self]
    obtain ⟨buf', hout, _, hdrop⟩ :=
      bn_hex_outer_spec a.ptr (init ++ [top]) 0 idx0 (kzalloc BUFSIZE)
        (by rw [hbuf]; omega) (by intro j hj; simpa using hrd j hj)
    have hstream : (nibbleStream (init ++ [top])).take idx0 = Nat.digits 16 V := by
      rw [nibbleStream_eq _ hw, nibbles_take _ _ _ (by simp; omega), hidx, hVdef]
      exact nibbles_eq_digits _ _ hVlo hVhi
    have hwlen : ((nibbleStream (init ++ [top])).take idx0).length = idx0 := by
      rw [nibbleStream_eq _ hw, List.length_take, nibbles_length]
      simp; omega
    rw [hwlen, Nat.sub_self, List.drop_zero, hstream] at hdrop
    have hrest : List.drop idx0 (kzalloc BUFSIZE)
        = List.replicate (65535 - idx0 + 1) NUL := by
      unfold kzalloc
      rw [List.drop_replicate]
      have e : BUFSIZE - idx0 = 65535 - idx0 + 1 := by
        have : BUFSIZE = 65536 := rfl
        omega
      rw [e]
    rw [hrest] at hdrop
    have hlenS : (init ++ [top]).length = bn_size a := by simpa [bn_size] using hlen
    rw [hlenS] at hout
    unfold bn_hex
    rw [bn_hex_body_nonzero a top tem' idx0 _ _ _ htop ht0 hskip hwrc hout]
    rw [hdrop, cstring_rendered]
    · have hfun : (fun d => HEXTAB.getD d NUL) = hexChar := rfl
      simp only [hexNumeral, if_neg hVne, hfun, List.map_reverse]
    · intro c hc
      simp only [List.mem_reverse, List.mem_map] at hc
      obtain ⟨d, hd1, rfl⟩ := hc
      exact hexChar_ne_NUL d (Nat.digits_lt_base (by norm_num) hd1)

/-! ## The fast-doubling engine -/

theorem bn_assign_init_one : bn_assign bn_init 1 = some (bn.ofDigits [1]) := by decide

/-- Adding the two stores that `bn_mul` leaves in the first round reads slots that were never
written. -/
theorem bn_add_squares_undefined :
    bn_add bn_init (bn_mul bn_init (bn.ofDigits [1]) (bn.ofDigits [1]))
      (bn_mul bn_init (bn.ofDigits [1]) (bn.ofDigits [1])) = none := by decide

/-- The first round of the doubling loop has no defined outcome, whatever the three-operand shift
returns. -/
theorem fib_fast_body_first (sll3 : bn → bn → Nat → Option bn) (k mask : Nat) :
    fib_fast_body sll3 k mask
      { fcur := bn.ofDigits [1], fnext := bn.ofDigits [1], t1 := bn_init, t2 := bn_init,
        fnext2 := bn_init, fcur_sqrt := bn_init, fnext_sqrt := bn_init, tem := bn_init } = none := by
  unfold fib_fast_body
  cases h1 : sll3 bn_init (bn.ofDigits [1]) 1 with
  | none => simp
  | some f2 =>
    cases h2 : bn_sub bn_init f2 (bn.ofDigits [1]) with
    | none => simp [h2]
    | some t => simp [h2, bn_add_squares_undefined]

/-- Rendering of a one-digit store. -/
theorem bn_hex_single (k : Nat) (hk : k < U64) :
    bn_hex (bn.ofDigits [k]) = some (hexNumeral k) := by
  have h := bn_hex_spec (bn.ofDigits [k]) [k] (by simp [bn.ofDigits, bn.digits, collect])
    (by simpa using hk) (by simp [bn.ofDigits]) (by simp [bn.ofDigits])
    (by
      by_cases h0 : k = 0
      · left; rw [h0]
      · right; simpa using h0)
  simpa using h

/-- A word of at least two bits' worth has at least two bits below its leading zeros. -/
theorem leadingZeros_add_two_le (w : Nat) : ∀ x, 2 ≤ x → x < 2 ^ w → leadingZeros w x + 2 ≤ w := by
  induction w with
  | zero => intro x h2 hx; simp at hx; omega
  | succ w ih =>
    intro x h2 hx
    unfold leadingZeros
    by_cases hb : x / 2 ^ w % 2 = 1
    · rw [if_pos hb]
      rcases Nat.eq_zero_or_pos w with h0 | h0
      · subst h0; simp at hx; omega
      · omega
    · rw [if_neg hb]
      have hq : x / 2 ^ w < 2 := by
        rw [Nat.div_lt_iff_lt_mul (by positivity)]
        calc x < 2 ^ (w + 1) := hx
          _ = 2 * 2 ^ w := by ring
      have hq0 : x / 2 ^ w = 0 := by
        generalize x / 2 ^ w = q at hb hq
        omega
      have hlt : x < 2 ^ w := by
        rcases Nat.lt_or_ge x (2 ^ w) with h | h
        · exact h
        · have : 1 ≤ x / 2 ^ w := (Nat.le_div_iff_mul_le (by positivity)).2 (by simpa using h)
          omega
      have := ih x h2 hlt
      omega

/-- For an index `k` from 2 up, the initial `mask` of the fast-doubling `fib_sequence` is a
non-zero word. -/
theorem fib_fast_mask_pos (k : Nat) (h2 : 2 ≤ k) (hk : k < 2 ^ 63) :
    ∃ m, fib_fast_mask k = some m ∧ m ≠ 0 := by
  have hU : U64 = 2 ^ 64 := rfl
  have hk64 : k % U64 = k := Nat.mod_eq_of_lt (by rw [hU]; omega)
  have hlz := leadingZeros_add_two_le 64 k h2 (by omega)
  have hc : builtin_clzll k = some (leadingZeros 64 k) := by
    unfold builtin_clzll
    rw [hk64, if_neg (by omega)]
  have hoff : (leadingZeros 64 k + 1) % U32 = leadingZeros 64 k + 1 :=
    Nat.mod_eq_of_lt (by unfold U32; omega)
  refine ⟨2 ^ (BITS - 1) >>> (leadingZeros 64 k + 1), ?_, ?_⟩
  · unfold fib_fast_mask
    rw [hc]
    simp only [Option.bind_eq_bind, Option.some_bind, hoff]
    unfold shr64
    rw [if_pos (by unfold N_BITS; omega)]
  · have hB : BITS - 1 = 63 := rfl
    rw [hB, Nat.shiftRight_eq_div_pow]
    have hle : 2 ^ (leadingZeros 64 k + 1) ≤ 2 ^ 63 :=
      Nat.pow_le_pow_right (by norm_num) (by omega)
    have : 1 ≤ 2 ^ 63 / 2 ^ (leadingZeros 64 k + 1) :=
      (Nat.le_div_iff_mul_le (by positivity)).2 (by simpa using hle)
    omega

/-- From index 2 up the fast-doubling `fib_sequence` has no defined result, whatever the
three-operand shift does: the first round of the loop adds stores that `bn_mul` left unwritten. -/
theorem fib_sequence_fast_undefined (sll3 : bn → bn → Nat → Option bn) (k : Nat) (h2 : 2 ≤ k)
    (hk : k < 2 ^ 63) : fib_sequence_fast sll3 k = none := by
  obtain ⟨m, hm, hm0⟩ := fib_fast_mask_pos k h2 hk
  unfold fib_sequence_fast
  simp only [bn_assign_init_one, hm, Option.bind_eq_bind, Option.some_bind]
  rw [if_neg (by omega)]
  have hl : fib_fast_loop sll3 k (N_BITS + 1) m
      { fcur := bn.ofDigits [1], fnext := bn.ofDigits [1], t1 := bn_init, t2 := bn_init,
        fnext2 := bn_init, fcur_sqrt := bn_init, fnext_sqrt := bn_init, tem := bn_init }
      = none := by
    have e : N_BITS + 1 = 64 + 1 := rfl
    rw [e, fib_fast_loop, if_neg hm0, fib_fast_body_first]
    rfl
  rw [hl]
  rfl

/-- C1 (the code departs from the claim): at index 10 the fast-doubling `fib_sequence` returns
no defined text, whatever the three-operand shift does; `bn_mul` writes no digit of its product,
so the first round already adds two stores whose digits were never written, while the claim
says the text is "37", the numeral of F(10) = 55. -/
theorem fib_sequence_fast_ten (sll3 : bn → bn → Nat → Option bn) :
    fib_sequence_fast sll3 10 = none ∧ hexNumeral 55 = "37" := by
  constructor
  · exact fib_sequence_fast_undefined sll3 10 (by decide) (by decide)
  · norm_num [hexNumeral]
    decide

/-- For `k ≤ 1` the fast-doubling `fib_sequence` assigns `k` to `fcur` and renders it. -/
theorem fib_sequence_fast_small (sll3 : bn → bn → Nat → Option bn) (k : Nat) (hk : k ≤ 1) :
    fib_sequence_fast sll3 k = (bn_assign (bn.ofDigits [1]) k).bind bn_hex := by
  unfold fib_sequence_fast
  simp only [bn_assign_init_one, Option.bind_eq_bind, Option.some_bind]
  rw [if_pos hk]

/-- C2: for the indices 0 and 1 the fast-doubling `fib_sequence` returns the texts "0" and "1",
whatever the three-operand shift of the doubling loop does: the result is the rendering of the
one-digit store holding `k`, and the loop is not entered. -/
theorem fib_sequence_fast_zero_one (sll3 : bn → bn → Nat → Option bn) :
    fib_sequence_fast sll3 0 = some "0" ∧ fib_sequence_fast sll3 1 = some "1" ∧
    fib_sequence_fast sll3 0 = bn_hex (bn.ofDigits [0]) ∧
    fib_sequence_fast sll3 1 = bn_hex (bn.ofDigits [1]) := by
  have a0 : bn_assign (bn.ofDigits [1]) 0 = some (bn.ofDigits [0]) := by decide
  have a1 : bn_assign (bn.ofDigits [1]) 1 = some (bn.ofDigits [1]) := by decide
  have e0 : fib_sequence_fast sll3 0 = bn_hex (bn.ofDigits [0]) := by
    rw [fib_sequence_fast_small sll3 0 (by decide), a0, Option.some_bind]
  have e1 : fib_sequence_fast sll3 1 = bn_hex (bn.ofDigits [1]) := by
    rw [fib_sequence_fast_small sll3 1 (by decide), a1, Option.some_bind]
  have h0 : hexNumeral 0 = "0" := by simp [hexNumeral]
  have h1 : hexNumeral 1 = "1" := by
    simp [hexNumeral]
    decide
  refine ⟨?_, ?_, e0, e1⟩
  · rw [e0, bn_hex_single 0 (by decide), h0]
  · rw [e1, bn_hex_single 1 (by decide), h1]

/-! ## The arithmetic primitives at concrete stores -/

/-- C3 (the code departs from the claim): `bn_add` with a first operand shorter than the second.
The first operand is the one-digit store 1 that `bn_assign` leaves in a block of two slots, the
second slot still holding 7; the second operand is 2 ^ 64.  The first loop runs over the two
digits of `b` and reads the stale slot of `a`: the result has the digits 1 and 8, that is
1 + 8 * 2 ^ 64, where the claim promises 1 + 2 ^ 64.  When the block of `a` has a single slot
the same read falls outside the block. -/
theorem bn_add_short_first_operand :
    bn_assign (bn.ofDigits [5, 7]) 1 = some { ptr := some [some 1, some 7], size := 1, capacity := 2 } ∧
    bn_add bn_init { ptr := some [some 1, some 7], size := 1, capacity := 2 } (bn.ofDigits [0, 1])
      = some { ptr := some [some 1, some 8], size := 2, capacity := 2 } ∧
    bn.value { ptr := some [some 1, some 7], size := 1, capacity := 2 } = some 1 ∧
    bn.value (bn.ofDigits [0, 1]) = some (2 ^ 64) ∧
    bn.value { ptr := some [some 1, some 8], size := 2, capacity := 2 } = some (1 + 8 * 2 ^ 64) ∧
    bn_add bn_init (bn.ofDigits [1]) (bn.ofDigits [0, 1]) = none := by
  decide

/-- C4 (the code departs from the claim): `bn_sub` loses a borrow.  For a = 2 ^ 128 and
b = 2 ^ 128 - 2 ^ 64 + 1 (digits 1 and 2 ^ 64 - 1) the borrow out of digit 0 meets the digit
2 ^ 64 - 1 of `b`; `sub + borrow` wraps to 0, the comparison `a->ptr[i] < sub + borrow` fails and
no borrow reaches digit 2.  The result has the digits 2 ^ 64 - 1, 0, 1, that is
2 ^ 128 + 2 ^ 64 - 1, where the claim promises a - b = 2 ^ 64 - 1. -/
theorem bn_sub_lost_borrow :
    bn_sub bn_init (bn.ofDigits [0, 0, 1]) (bn.ofDigits [1, 2 ^ 64 - 1])
      = some { ptr := some [some (2 ^ 64 - 1), some 0, some 1], size := 3, capacity := 3 } ∧
    bn.value (bn.ofDigits [0, 0, 1]) = some (2 ^ 128) ∧
    bn.value (bn.ofDigits [1, 2 ^ 64 - 1]) = some (2 ^ 128 - 2 ^ 64 + 1) ∧
    bn.value { ptr := some [some (2 ^ 64 - 1), some 0, some 1], size := 3, capacity := 3 }
      = some (2 ^ 128 + 2 ^ 64 - 1) := by
  decide

/-- C5 (the code departs from the claim): `bn_mul` computes no product.  Into a fresh store it
only allocates two slots and sets the size to 2, no digit being written, so the result
represents nothing; into a store that already has the room (here the store 1 with two slots) it
changes nothing, so the result of 2 * 3 is still 1. -/
theorem bn_mul_no_product :
    bn_mul bn_init (bn.ofDigits [2]) (bn.ofDigits [3])
      = { ptr := some [none, none], size := 2, capacity := 2 } ∧
    bn.value (bn_mul bn_init (bn.ofDigits [2]) (bn.ofDigits [3])) = none ∧
    bn_mul { ptr := some [some 1, some 0], size := 1, capacity := 2 } (bn.ofDigits [2])
        (bn.ofDigits [3])
      = { ptr := some [some 1, some 0], size := 1, capacity := 2 } ∧
    bn.value { ptr := some [some 1, some 0], size := 1, capacity := 2 } = some 1 := by
  decide

/-- C6 (the code departs from the claim): `bn_sll` of the one-digit store 2 ^ 63 + 1 by one bit.
The size test uses `__builtin_clz`, which sees only the low 32 bits of the top digit (here 1,
with 31 leading zeros), so the size stays 1 although bit 63 is shifted out: the result is the
single digit 2, where the claim promises 2 ^ 64 + 2 in two digits. -/
theorem bn_sll_drops_top_bit :
    bn_sll (bn.ofDigits [2 ^ 63 + 1]) 1
      = some { ptr := some [some 2, none], size := 1, capacity := 2 } ∧
    bn.value (bn.ofDigits [2 ^ 63 + 1]) = some (2 ^ 63 + 1) ∧
    bn.value { ptr := some [some 2, none], size := 1, capacity := 2 } = some 2 := by
  decide

/-- C7 (the code departs from the claim): `bn_srl` of the two-digit store 6 * 2 ^ 64 by two
bits.  The size is recomputed from the top digit after it has been shifted (6 >> 2 = 1, one
significant bit, and 1 <= 2), so the size drops to 1 although the new top digit is 1: the result
is the single digit 2 ^ 63, where the claim promises 2 ^ 64 + 2 ^ 63 in two digits. -/
theorem bn_srl_drops_top_digit :
    bn_srl (bn.ofDigits [0, 6]) 2
      = some { ptr := some [some (2 ^ 63), some 1], size := 1, capacity := 2 } ∧
    bn.value (bn.ofDigits [0, 6]) = some (6 * 2 ^ 64) ∧
    6 * 2 ^ 64 / 2 ^ 2 = 2 ^ 64 + 2 ^ 63 ∧
    bn.value { ptr := some [some (2 ^ 63), some 1], size := 1, capacity := 2 } = some (2 ^ 63) := by
  decide

/-- C8 (the code departs from the claim): `bn_greater` returns 0 for a = 2 ^ 64 - 1 and b = 1,
both of one digit: the difference b - a wraps to 2, whose sign bit is clear.  It also returns 0
for a = 2 and b = 1: there the masked difference is 2 ^ 63, which the `int` return type reduces
to 0.  In both cases a is greater than b. -/
theorem bn_greater_misses :
    bn_greater (bn.ofDigits [2 ^ 64 - 1]) (bn.ofDigits [1]) = some 0 ∧
    bn_greater (bn.ofDigits [2]) (bn.ofDigits [1]) = some 0 ∧
    bn.value (bn.ofDigits [2 ^ 64 - 1]) = some (2 ^ 64 - 1) ∧
    bn.value (bn.ofDigits [2]) = some 2 ∧
    bn.value (bn.ofDigits [1]) = some 1 := by
  decide

/-- C9: for a store of 1 to 4095 digits (each below 2 ^ 64) that is the single digit 0 or has a
non-zero top digit, `bn_hex` returns the uppercase hexadecimal numeral of the value the store
represents, most significant digit first, "0" for zero. -/
theorem bn_hex_renders_value (a : bn) (ds : List Nat) (hd : a.digits = some ds)
    (hw : ∀ d ∈ ds, d < U64) (h1 : 1 ≤ a.size) (h2 : a.size ≤ 4095)
    (hn : ds = [0] ∨ ds.getLast? ≠ some 0) :
    a.value = some (Nat.ofDigits U64 ds) ∧
    bn_hex a = some (hexNumeral (Nat.ofDigits U64 ds)) :=
  ⟨by simp [bn.value, hd], bn_hex_spec a ds hd hw h1 h2 hn⟩

/-- Witness for C9: the store assigned 255 renders as "FF" and the store assigned 0 as "0". -/
theorem bn_hex_renders_value_witness :
    bn_assign bn_init 255 = some (bn.ofDigits [255]) ∧
    (bn.ofDigits [255]).digits = some [255] ∧
    bn_hex (bn.ofDigits [255]) = some "FF" ∧
    bn_assign bn_init 0 = some (bn.ofDigits [0]) ∧
    (bn.ofDigits [0]).digits = some [0] ∧
    bn_hex (bn.ofDigits [0]) = some "0" := by
  refine ⟨by decide, by decide, ?_, by decide, by decide, ?_⟩
  · have h := (bn_hex_renders_value (bn.ofDigits [255]) [255] (by decide) (by decide)
      (by decide) (by decide) (by decide)).2
    rw [h]
    norm_num [hexNumeral]
    decide
  · have h := (bn_hex_renders_value (bn.ofDigits [0]) [0] (by decide) (by decide)
      (by decide) (by decide) (by decide)).2
    rw [h]
    simp [hexNumeral]

/-- C10 (the code departs from the claim): shifting the one-digit store 1 left by one bit and
then right by one bit gives back the digit 1 but the size 0 instead of 1: `bn_srl` recomputes
the size from the shifted top digit (one significant bit, and 1 <= 1). -/
theorem bn_sll_srl_not_restored :
    (bn_sll (bn.ofDigits [1]) 1).bind (fun a => bn_srl a 1)
      = some { ptr := some [some 1, none], size := 0, capacity := 2 } ∧
    (bn.ofDigits [1]).size = 1 := by
  decide

/-! ## Addition and subtraction are correct where they are -/

theorem wr_some (blk : Block) (i v : Nat) (h : i < blk.length) :
    wr (some blk) i v = some (some (blk.set i (some v))) := by
  simp [wr, h]

/-- After a write at index `i`, the first `i + 1` slots are the old first `i` slots and the new value. -/
theorem take_set_succ {α : Type} (l : List α) (i : Nat) (v : α) (h : i < l.length) :
    (l.set i v).take (i + 1) = l.take i ++ [v] := by
  have e : (l.set i v).take i = l.take i :=
    List.ext_getElem? fun j => by
      rw [List.getElem?_take, List.getElem?_take]
      split
      · rw [List.getElem?_set_ne (by omega)]
      · rfl
  rw [List.take_succ, e]
  simp [h]

/-- The value of the first `i + 1` digits, from the value of the first `i` and digit `i`. -/
theorem ofDigits_take_succ (l : List Nat) (i : Nat) :
    Nat.ofDigits U64 (l.take (i + 1)) = Nat.ofDigits U64 (l.take i) + U64 ^ i * l.getD i 0 := by
  rcases Nat.lt_or_ge i l.length with h | h
  · rw [List.take_succ, Nat.ofDigits_append]
    simp [h, List.length_take, Nat.min_eq_left (Nat.le_of_lt h)]
  · rw [List.take_of_length_le (by omega), List.take_of_length_le h]
    simp [List.getD, List.getElem?_eq_none h]

/-- The carry expression of the first loop of `bn_add` is the quotient of the digit sum by `2 ^ 64`. -/
theorem bn_add_carry1 (x y c : Nat) (hx : x < U64) (hy : y < U64) (hc : c ≤ 1) :
    (if (x + c) % U64 > U64 - 1 - y ∨ x > U64 - 1 - c then 1 else 0) = (x + y + c) / U64 := by
  unfold U64 at *
  split <;> omega

/-- The carry expression of the second loop of `bn_add` is the quotient of the digit sum by
`2 ^ 64`. -/
theorem bn_add_carry2 (x c : Nat) (hx : x < U64) (hc : c ≤ 1) :
    (if c > U64 - 1 - x then 1 else 0) = (x + c) / U64 := by
  unfold U64 at *
  split <;> omega

/-- One round of either loop of `bn_add` keeps the invariant. -/
theorem AddInv_step (da db : List Nat) (i : Nat) (blk : Block) (c x : Nat)
    (hinv : AddInv da db i blk c) (hi : i < blk.length) (hx : da.getD i 0 = x)
    (hxlt : x < U64) (hylt : db.getD i 0 < U64) :
    AddInv da db (i + 1) (blk.set i (some ((x + db.getD i 0 + c) % U64)))
      ((x + db.getD i 0 + c) / U64) := by
  obtain ⟨ws, htake, hlen, hws, hc, hsum⟩ := hinv
  have hU : 0 < U64 := by unfold U64; norm_num
  refine ⟨ws ++ [(x + db.getD i 0 + c) % U64], ?_, by simp [hlen], ?_, ?_, ?_⟩
  · rw [take_set_succ _ _ _ hi, htake]
    simp
  · intro w hw
    rcases List.mem_append.1 hw with h | h
    · exact hws w h
    · simp at h; rw [h]; exact Nat.mod_lt _ hU
  · have : x + db.getD i 0 + c < 2 * U64 := by omega
    exact Nat.le_of_lt_succ ((Nat.div_lt_iff_lt_mul hU).2 (by omega))
  · rw [Nat.ofDigits_append, hlen, ofDigits_take_succ da, ofDigits_take_succ db, hx]
    have hdm := Nat.div_add_mod (x + db.getD i 0 + c) U64
    simp only [Nat.ofDigits_singleton]
    have e : U64 ^ (i + 1) * ((x + db.getD i 0 + c) / U64)
        = U64 ^ i * (U64 * ((x + db.getD i 0 + c) / U64)) := by ring
    rw [e]
    have e2 : U64 ^ i * ((x + db.getD i 0 + c) % U64)
          + U64 ^ i * (U64 * ((x + db.getD i 0 + c) / U64))
        = U64 ^ i * (x + db.getD i 0 + c) := by
      rw [← Nat.mul_add, Nat.add_comm, hdm]
    calc Nat.ofDigits U64 ws + U64 ^ i * ((x + db.getD i 0 + c) % U64)
          + U64 ^ i * (U64 * ((x + db.getD i 0 + c) / U64))
        = Nat.ofDigits U64 ws + U64 ^ i * (x + db.getD i 0 + c) := by rw [Nat.add_assoc, e2]
      _ = (Nat.ofDigits U64 ws + U64 ^ i * c) + U64 ^ i * (x + db.getD i 0) := by ring
      _ = _ := by rw [hsum]; ring

/-- A digit of a list of 64-bit words, or the default 0, is a 64-bit word. -/
theorem getD_lt_of_all (l : List Nat) (h : ∀ d ∈ l, d < U64) (i : Nat) : l.getD i 0 < U64 := by
  rcases Nat.lt_or_ge i l.length with hi | hi
  · have : l.getD i 0 = l[i] := by simp [List.getD, List.getElem?_eq_getElem hi]
    rw [this]
    exact h _ (List.getElem_mem hi)
  · have : l.getD i 0 = 0 := by simp [List.getD, List.getElem?_eq_none hi]
    rw [this]; unfold U64; norm_num

/-- A read inside the digits of a store returns the digit. -/
theorem rd_getD (p : Ptr) (l : List Nat) (h : ∀ j, j < l.length → rd p j = l[j]?) (i : Nat)
    (hi : i < l.length) : rd p i = some (l.getD i 0) := by
  rw [h i hi]
  simp [List.getD, List.getElem?_eq_getElem hi]

/-- The first loop of `bn_add` runs to its end inside the block and keeps the invariant. -/
theorem bn_add_loop1_spec (pa pb : Ptr) (da db : List Nat)
    (hra : ∀ j, j < da.length → rd pa j = da[j]?) (hrb : ∀ j, j < db.length → rd pb j = db[j]?)
    (hda : ∀ d ∈ da, d < U64) (hdb : ∀ d ∈ db, d < U64) (hlen : db.length ≤ da.length) :
    ∀ (n i : Nat) (blk : Block) (c : Nat), AddInv da db i blk c → i + n ≤ blk.length →
      i + n ≤ db.length →
      ∃ blk' c', bn_add_loop1 pa pb n i (some blk) c = some (some blk', c') ∧
        blk'.length = blk.length ∧ AddInv da db (i + n) blk' c' := by
  intro n
  induction n with
  | zero =>
    intro i blk c hinv _ _
    exact ⟨blk, c, rfl, rfl, hinv⟩
  | succ n ih =>
    intro i blk c hinv hblk hdbl
    have hx := rd_getD pa da hra i (by omega)
    have hy := rd_getD pb db hrb i (by omega)
    have hxlt := getD_lt_of_all da hda i
    have hylt := getD_lt_of_all db hdb i
    have hc : c ≤ 1 := by obtain ⟨_, _, _, _, hc, _⟩ := hinv; exact hc
    have hstep := AddInv_step da db i blk c (da.getD i 0) hinv (by omega) rfl hxlt hylt
    obtain ⟨blk', c', hrun, hl, hinv'⟩ :=
      ih (i + 1) (blk.set i (some ((da.getD i 0 + db.getD i 0 + c) % U64)))
        ((da.getD i 0 + db.getD i 0 + c) / U64) hstep (by simp; omega) (by omega)
    refine ⟨blk', c', ?_, by simpa using hl, by
      have e : i + (n + 1) = i + 1 + n := by omega
      rw [e]; exact hinv'⟩
    simp only [bn_add_loop1, hx, hy, Option.bind_eq_bind, Option.some_bind,
      wr_some blk i _ (show i < blk.length by omega), bn_add_carry1 _ _ _ hxlt hylt hc]
    exact hrun

/-- The second loop of `bn_add` runs to its end inside the block and keeps the invariant. -/
theorem bn_add_loop2_spec (pa : Ptr) (da db : List Nat)
    (hra : ∀ j, j < da.length → rd pa j = da[j]?)
    (hda : ∀ d ∈ da, d < U64) :
    ∀ (n i : Nat) (blk : Block) (c : Nat), AddInv da db i blk c → i + n ≤ blk.length →
      i + n ≤ da.length → db.length ≤ i →
      ∃ blk' c', bn_add_loop2 pa n i (some blk) c = some (some blk', c') ∧
        blk'.length = blk.length ∧ AddInv da db (i + n) blk' c' := by
  intro n
  induction n with
  | zero =>
    intro i blk c hinv _ _ _
    exact ⟨blk, c, rfl, rfl, hinv⟩
  | succ n ih =>
    intro i blk c hinv hblk hdal hdbi
    have hx := rd_getD pa da hra i (by omega)
    have hxlt := getD_lt_of_all da hda i
    have hy0 : db.getD i 0 = 0 := by simp [List.getD, List.getElem?_eq_none hdbi]
    have hc : c ≤ 1 := by obtain ⟨_, _, _, _, hc, _⟩ := hinv; exact hc
    have hstep := AddInv_step da db i blk c (da.getD i 0) hinv (by omega) rfl hxlt
      (by rw [hy0]; unfold U64; norm_num)
    rw [hy0, Nat.add_zero] at hstep
    obtain ⟨blk', c', hrun, hl, hinv'⟩ :=
      ih (i + 1) (blk.set i (some ((da.getD i 0 + c) % U64)))
        ((da.getD i 0 + c) / U64) hstep (by simp; omega) (by omega) (by omega)
    refine ⟨blk', c', ?_, by simpa using hl, by
      have e : i + (n + 1) = i + 1 + n := by omega
      rw [e]; exact hinv'⟩
    simp only [bn_add_loop2, hx, Option.bind_eq_bind, Option.some_bind,
      wr_some blk i _ (show i < blk.length by omega), bn_add_carry2 _ _ hxlt hc]
    exact hrun

/-- Written slots are collected into their values. -/
theorem collect_map_some (l : List Nat) : collect (l.map some) = some l := by
  induction l with
  | nil => rfl
  | cons x xs ih => simp [collect, ih]

/-- A block from `krealloc` has the requested number of slots. -/
theorem krealloc_length (p : Ptr) (n : Nat) : (krealloc p n).length = n := by
  cases p with
  | none => simp [krealloc]
  | some b => simp [krealloc]; omega

/-- A store has as many digits as its size. -/
theorem digits_length (a : bn) (ds : List Nat) (h : a.digits = some ds) : ds.length = a.size := by
  unfold bn.digits at h
  cases hp : a.ptr with
  | none =>
    rw [hp] at h
    simp only at h
    split at h
    · rename_i h0; cases h; simp [h0]
    · cases h
  | some blk =>
    rw [hp] at h
    simp only at h
    split at h
    · rename_i hle
      have := congrArg List.length (collect_eq_some _ _ h)
      simp at this
      omega
    · cases h

/-- The digits of a store whose first `n` slots are written. -/
theorem digits_of_take (blk : Block) (n cap : Nat) (rs : List Nat) (hn : n ≤ blk.length)
    (ht : blk.take n = rs.map some) :
    bn.digits { ptr := some blk, size := n, capacity := cap } = some rs := by
  unfold bn.digits
  simp only [if_pos hn, ht, collect_map_some]

/-- After the capacity test and the resize to `n` slots, a well-formed store has a block of at
least `n` slots whose length is its capacity. -/
theorem ensure_capacity (result : bn) (hr : result.wf) (n : Nat) (hn1 : 1 ≤ n) (hn : n < U32) :
    ∃ blk, (if bn_capacity result < n then bn_resize result n else result).ptr = some blk ∧
      blk.length = (if bn_capacity result < n then bn_resize result n else result).capacity ∧
      n ≤ blk.length := by
  by_cases hc : bn_capacity result < n
  · rw [if_pos hc]
    refine ⟨krealloc result.ptr n, rfl, ?_, ?_⟩
    · simp [bn_resize, krealloc_length, Nat.mod_eq_of_lt hn]
    · simp [krealloc_length]
  · rw [if_neg hc]
    unfold bn_capacity at hc
    unfold bn.wf at hr
    cases hp : result.ptr with
    | none => rw [hp] at hr; simp only at hr; omega
    | some blk =>
      rw [hp] at hr
      simp only at hr
      exact ⟨blk, rfl, hr, by omega⟩

/-- A zero top digit leaves a value below the weight of the top position. -/
theorem ofDigits_getLast_zero (l : List Nat) (hl : ∀ d ∈ l, d < U64)
    (h0 : l.getLast? = some 0) : Nat.ofDigits U64 l < U64 ^ (l.length - 1) := by
  have hne : l ≠ [] := by intro h; rw [h] at h0; simp at h0
  have hlast : l.getLast hne = 0 := by
    rw [List.getLast?_eq_getLast _ hne] at h0
    exact Option.some.inj h0
  have hsplit := List.dropLast_append_getLast hne
  rw [hlast] at hsplit
  have hlt : Nat.ofDigits U64 l.dropLast < U64 ^ l.dropLast.length :=
    Nat.ofDigits_lt_base_pow_length (by unfold U64; norm_num)
      (fun x hx => hl x (List.mem_of_mem_dropLast hx))
  have hv : Nat.ofDigits U64 l = Nat.ofDigits U64 l.dropLast := by
    conv_lhs => rw [← hsplit]
    rw [Nat.ofDigits_append]
    simp
  rw [hv]
  simpa using hlt

/-- A non-zero top digit makes the value at least the weight of the top position. -/
theorem ofDigits_getLast_ne_zero (l : List Nat) (hne : l ≠ [])
    (h0 : l.getLast? ≠ some 0) : U64 ^ (l.length - 1) ≤ Nat.ofDigits U64 l := by
  have hlast : l.getLast hne ≠ 0 := by
    intro h
    apply h0
    rw [List.getLast?_eq_getLast _ hne, h]
  have hsplit := List.dropLast_append_getLast hne
  have hv : Nat.ofDigits U64 l
      = Nat.ofDigits U64 l.dropLast + U64 ^ l.dropLast.length * l.getLast hne := by
    conv_lhs => rw [← hsplit]
    rw [Nat.ofDigits_append]
    simp
  rw [hv]
  have h1 : 1 ≤ l.getLast hne := Nat.pos_of_ne_zero hlast
  have hd : l.dropLast.length = l.length - 1 := by simp
  rw [hd]
  calc U64 ^ (l.length - 1) = U64 ^ (l.length - 1) * 1 := by ring
    _ ≤ U64 ^ (l.length - 1) * l.getLast hne := Nat.mul_le_mul_left _ h1
    _ ≤ _ := Nat.le_add_left _ _

/-- Correctness of `bn_add` when `a` is at least as long as `b`: the result is well formed, holds
the digits of the sum, has length `len a` plus the final carry within its capacity, and keeps a
non-zero top digit. -/
theorem bn_add_spec (result a b : bn) (da db : List Nat)
    (hr : result.wf) (ha : a.digits = some da) (hb : b.digits = some db)
    (hda : ∀ d ∈ da, d < U64) (hdb : ∀ d ∈ db, d < U64)
    (hlen : db.length ≤ da.length) (hb1 : 1 ≤ db.length) (hsz : da.length + 1 < U32) :
    ∃ r rs, bn_add result a b = some r ∧ r.wf ∧ r.digits = some rs ∧ (∀ d ∈ rs, d < U64) ∧
      Nat.ofDigits U64 rs = Nat.ofDigits U64 da + Nat.ofDigits U64 db ∧
      r.size = da.length + (Nat.ofDigits U64 da + Nat.ofDigits U64 db) / U64 ^ da.length ∧
      r.size ≤ r.capacity ∧
      (da.getLast? ≠ some 0 → rs.getLast? ≠ some 0) := by
  have hla := digits_length a da ha
  have hlb := digits_length b db hb
  obtain ⟨_, hra⟩ := digits_rd a da ha (by omega)
  obtain ⟨_, hrb⟩ := digits_rd b db hb (by omega)
  have hU : 1 < U64 := by unfold U64; norm_num
  have hmax : MAX (bn_size a) (bn_size b) = da.length := by
    unfold MAX bn_size
    split <;> omega
  have hm1 : (da.length + 1) % U32 = da.length + 1 := Nat.mod_eq_of_lt hsz
  have hsa : (bn_size a + 1) % U32 = da.length + 1 := by
    unfold bn_size; rw [← hla, hm1]
  obtain ⟨blk, hptr, hcap, hblen⟩ := ensure_capacity result hr (da.length + 1) (by omega) hsz
  have hinv0 : AddInv da db 0 blk 0 := ⟨[], by simp, rfl, by simp, by omega, by simp⟩
  obtain ⟨blk1, c1, hrun1, hl1, hinv1⟩ :=
    bn_add_loop1_spec a.ptr b.ptr da db hra hrb hda hdb hlen db.length 0 blk 0 hinv0
      (by omega) (by omega)
  rw [Nat.zero_add] at hinv1
  obtain ⟨blk2, c2, hrun2, hl2, hinv2⟩ :=
    bn_add_loop2_spec a.ptr da db hra hda (da.length - db.length) db.length blk1 c1 hinv1
      (by omega) (by omega) (by omega)
  have e2 : db.length + (da.length - db.length) = da.length := by omega
  rw [e2] at hinv2
  obtain ⟨ws, htake, hwl, hws, hc2, hsum⟩ := hinv2
  rw [List.take_of_length_le (Nat.le_refl _), List.take_of_length_le hlen] at hsum
  have hwlt : Nat.ofDigits U64 ws < U64 ^ da.length := by
    have := Nat.ofDigits_lt_base_pow_length hU hws
    rwa [hwl] at this
  have hcarry : (Nat.ofDigits U64 da + Nat.ofDigits U64 db) / U64 ^ da.length = c2 := by
    rw [← hsum, Nat.add_mul_div_left _ _ (by positivity), Nat.div_eq_of_lt hwlt, Nat.zero_add]
  have hsize : (da.length + c2) % U32 = da.length + c2 := Nat.mod_eq_of_lt (by omega)
  -- unfold the function up to the final test
  have hrun : bn_add result a b =
      (if c2 ≠ 0 then
        (wr (some blk2) (((da.length + c2) % U32 + U32 - 1) % U32) c2).bind fun pr =>
          some { ptr := pr, size := (da.length + c2) % U32,
                 capacity := (if bn_capacity result < da.length + 1
                   then bn_resize result (da.length + 1) else result).capacity }
      else
        some { ptr := some blk2, size := (da.length + c2) % U32,
               capacity := (if bn_capacity result < da.length + 1
                 then bn_resize result (da.length + 1) else result).capacity }) := by
    unfold bn_add
    simp only [hmax, hm1, hsa, hptr, Option.bind_eq_bind, Option.pure_def]
    rw [show bn_size b = db.length from hlb.symm, hrun1]
    simp only [Option.some_bind]
    rw [hrun2]
    simp only [Option.some_bind]
  rw [hrun, hsize]
  by_cases hc0 : c2 = 0
  · subst hc0
    simp only [ne_eq, not_true_eq_false, if_false, Nat.add_zero]
    refine ⟨_, ws, rfl, ?_, ?_, hws, ?_, ?_, ?_, ?_⟩
    · show List.length blk2 = _
      rw [hl2, hl1, hcap]
    · exact digits_of_take blk2 _ _ ws (by rw [hl2, hl1]; omega) htake
    · simpa using hsum
    · simp [hcarry]
    · show da.length ≤ _
      rw [← hcap]; omega
    · intro htop hw0
      have hne : da ≠ [] := by
        intro h
        have := congrArg List.length h
        simp only [List.length_nil] at this
        omega
      have h1 := ofDigits_getLast_ne_zero da hne htop
      have h2 := ofDigits_getLast_zero ws hws hw0
      rw [hwl] at h2
      simp only [Nat.mul_zero, Nat.add_zero] at hsum
      omega
  · have hc1 : c2 = 1 := by omega
    subst hc1
    have hidx : (da.length + 1 + U32 - 1) % U32 = da.length := by
      have : da.length + 1 + U32 - 1 = da.length + U32 := by omega
      rw [this, Nat.add_mod_right]
      exact Nat.mod_eq_of_lt (by omega)
    rw [if_pos (by decide), hidx, wr_some blk2 _ _ (by omega)]
    simp only [Option.some_bind]
    refine ⟨_, ws ++ [1], rfl, ?_, ?_, ?_, ?_, ?_, ?_, ?_⟩
    · show List.length (blk2.set _ _) = _
      rw [List.length_set, hl2, hl1, hcap]
    · apply digits_of_take
      · rw [List.length_set]; omega
      · rw [take_set_succ _ _ _ (by omega), htake]; simp
    · intro d hd
      rcases List.mem_append.1 hd with h | h
      · exact hws d h
      · simp at h; rw [h]; unfold U64; norm_num
    · rw [Nat.ofDigits_append, hwl, ← hsum]; simp
    · simp [hcarry]
    · show da.length + 1 ≤ _
      rw [← hcap]; omega
    · intro _
      simp

/-- The loop of `bn_sub` on equal operands writes zeros and never borrows. -/
theorem bn_sub_self_loop (pa : Ptr) (da : List Nat)
    (hra : ∀ j, j < da.length → rd pa j = da[j]?) (hda : ∀ d ∈ da, d < U64) :
    ∀ (n i : Nat) (blk : Block), blk.take i = List.replicate i (some 0) →
      i + n ≤ blk.length → i + n ≤ da.length →
      ∃ blk', bn_sub_loop pa pa da.length n i (some blk) 0 = some (some blk') ∧
        blk'.length = blk.length ∧ blk'.take (i + n) = List.replicate (i + n) (some 0) := by
  intro n
  induction n with
  | zero =>
    intro i blk h _ _
    exact ⟨blk, rfl, rfl, h⟩
  | succ n ih =>
    intro i blk htake hblk hdal
    have hx := rd_getD pa da hra i (by omega)
    have hxlt := getD_lt_of_all da hda i
    have hz : (da.getD i 0 + U64 + U64 - da.getD i 0 - 0) % U64 = 0 := by
      have : da.getD i 0 + U64 + U64 - da.getD i 0 - 0 = U64 * 2 := by omega
      rw [this]; exact Nat.mul_mod_right _ _
    have hb : (if da.getD i 0 < (da.getD i 0 + 0) % U64 then 1 else 0) = 0 := by
      rw [Nat.add_zero, Nat.mod_eq_of_lt hxlt, if_neg (Nat.lt_irrefl _)]
    have htake1 : (blk.set i (some 0)).take (i + 1) = List.replicate (i + 1) (some 0) := by
      rw [take_set_succ _ _ _ (by omega), htake, List.replicate_succ']
    obtain ⟨blk', hrun, hl, ht⟩ := ih (i + 1) (blk.set i (some 0)) htake1 (by simp; omega)
      (by omega)
    refine ⟨blk', ?_, by simpa using hl, by
      have e : i + (n + 1) = i + 1 + n := by omega
      rw [e]; exact ht⟩
    simp only [bn_sub_loop, hx, if_pos (show da.length > i by omega), Option.bind_eq_bind,
      Option.some_bind, hz, hb, wr_some blk i _ (show i < blk.length by omega)]
    exact hrun

/-- The store `bn_sub` leaves for equal operands: `len a - 1` zero digits. -/
theorem bn_sub_self_spec (result a : bn) (da : List Nat) (hr : result.wf)
    (ha : a.digits = some da) (hda : ∀ d ∈ da, d < U64) (h1 : 1 ≤ da.length)
    (hsz : da.length < U32) :
    ∃ r, bn_sub result a a = some r ∧ r.size = da.length - 1 ∧
      r.digits = some (List.replicate (da.length - 1) 0) := by
  have hla := digits_length a da ha
  obtain ⟨_, hra⟩ := digits_rd a da ha (by omega)
  obtain ⟨blk, hptr, hcap, hblen⟩ := ensure_capacity result hr da.length h1 hsz
  obtain ⟨blk', hrun, hl, ht⟩ := bn_sub_self_loop a.ptr da hra hda da.length 0 blk (by simp)
    (by omega) (by omega)
  rw [Nat.zero_add] at ht
  have hidx : (da.length + U32 - 1) % U32 = da.length - 1 := by
    have : da.length + U32 - 1 = da.length - 1 + U32 := by omega
    rw [this, Nat.add_mod_right]
    exact Nat.mod_eq_of_lt (by omega)
  have htop : rd (some blk') (da.length - 1) = some 0 := by
    have e : blk'[da.length - 1]? = (blk'.take da.length)[da.length - 1]? := by
      rw [List.getElem?_take_of_lt (by omega)]
    have hlt : da.length - 1 < da.length := by omega
    simp only [rd, List.get?_eq_getElem?, e, ht]
    rw [List.getElem?_replicate, if_pos hlt]
    rfl
  have hsz0 : (da.length + U32 - 1) % U32 = da.length - 1 := hidx
  refine ⟨{ ptr := some blk', size := da.length - 1,
            capacity := (if bn_capacity result < da.length
              then bn_resize result da.length else result).capacity }, ?_, rfl, ?_⟩
  · unfold bn_sub
    simp only [show bn_size a = da.length from hla.symm, hptr, hrun, Option.bind_eq_bind,
      Option.some_bind, hidx, htop, Option.pure_def, if_true]
  · apply digits_of_take
    · rw [hl]; omega
    · have : blk'.take (da.length - 1) = (blk'.take da.length).take (da.length - 1) := by
        rw [List.take_take, Nat.min_eq_left (by omega)]
      rw [this, ht]
      simp

/-- What `isNormalized` decides. -/
theorem isNormalized_iff (c : ZeroConv) (a : bn) :
    a.isNormalized c = true ↔ ∃ ds, a.digits = some ds ∧ (∀ d ∈ ds, d < U64) ∧
      ((ds ≠ [] ∧ ds.getLast? ≠ some 0) ∨ ds = zeroDigits c) := by
  unfold bn.isNormalized
  cases h : a.digits with
  | none => simp
  | some ds =>
    simp only [Bool.and_eq_true, Bool.or_eq_true, List.all_eq_true, decide_eq_true_eq,
      Bool.not_eq_true', bne_iff_ne, ne_eq, beq_iff_eq, Option.some.injEq, exists_eq_left',
      List.isEmpty_eq_false]

/-- The Fibonacci number F(n) is below `2 ^ n`. -/
theorem fib_lt_two_pow (n : Nat) : Nat.fib n < 2 ^ n := by
  induction n using Nat.strong_induction_on with
  | _ n ih =>
    match n with
    | 0 => simp
    | 1 => simp
    | m + 2 =>
      rw [Nat.fib_add_two]
      have h1 := ih m (by omega)
      have h2 := ih (m + 1) (by omega)
      have e : 2 ^ (m + 2) = 2 ^ m * 4 := by ring
      have e1 : 2 ^ (m + 1) = 2 ^ m * 2 := by ring
      omega

/-- A store with a non-zero top digit and a value below `2 ^ k` has fewer than `k / 64 + 1` digits. -/
theorem length_le_of_value_lt (ds : List Nat) (hne : ds ≠ []) (htop : ds.getLast? ≠ some 0)
    (k : Nat) (hv : Nat.ofDigits U64 ds < 2 ^ k) : 64 * (ds.length - 1) < k := by
  have h1 := ofDigits_getLast_ne_zero ds hne htop
  have hU : U64 ^ (ds.length - 1) = 2 ^ (64 * (ds.length - 1)) := by
    unfold U64; rw [← Nat.pow_mul]
  rw [hU] at h1
  exact (Nat.pow_lt_pow_iff_right (by norm_num)).1 (lt_of_le_of_lt h1 hv)

/-- The store `bn_assign` leaves is normalized when zero is held as one zero digit. -/
theorem bn_assign_normalized (a : bn) (v : Nat)
    (ha : a.ptr = none ∨ ∃ blk, a.ptr = some blk ∧ 1 ≤ blk.length) :
    ∃ r, bn_assign a v = some r ∧ r.isNormalized ZeroConv.oneZeroDigit = true := by
  have hU : 0 < U64 := by unfold U64; norm_num
  have key : ∀ blk : Block, 1 ≤ blk.length → ∀ cap,
      bn.isNormalized ZeroConv.oneZeroDigit
        { ptr := some (blk.set 0 (some (v % U64))), size := 1, capacity := cap } = true := by
    intro blk hb cap
    rw [isNormalized_iff]
    refine ⟨[v % U64], ?_, ?_, ?_⟩
    · apply digits_of_take
      · simp; omega
      · rw [take_set_succ _ _ _ (by omega)]; simp
    · intro d hd; simp at hd; rw [hd]; exact Nat.mod_lt _ hU
    · by_cases h0 : v % U64 = 0
      · right; rw [h0]; rfl
      · left; simp [h0]
  rcases ha with hn | ⟨blk, hp, hb⟩
  · refine ⟨_, ?_, key (krealloc none 1) (by simp [krealloc_length]) (1 % U32)⟩
    unfold bn_assign
    simp only [hn, Option.isNone_none, if_true, bn_resize, Option.bind_eq_bind]
    rw [wr_some _ _ _ (by simp [krealloc_length])]
    rfl
  · refine ⟨_, ?_, key blk hb a.capacity⟩
    unfold bn_assign
    simp only [hp, Option.isNone_some, Bool.false_eq_true, if_false, Option.bind_eq_bind]
    rw [wr_some _ _ _ (by omega)]
    rfl

/-- The store `bn_add` leaves for normalized operands, `a` at least as long as `b`, is normalized
when zero is held as one zero digit. -/
theorem bn_add_normalized (result a b : bn) (hr : result.wf)
    (ha : a.isNormalized ZeroConv.oneZeroDigit = true)
    (hb : b.isNormalized ZeroConv.oneZeroDigit = true)
    (hlen : b.size ≤ a.size) (hsz : a.size + 1 < U32) :
    ∃ r, bn_add result a b = some r ∧ r.isNormalized ZeroConv.oneZeroDigit = true := by
  obtain ⟨da, hda, hwa, hna⟩ := (isNormalized_iff _ _).1 ha
  obtain ⟨db, hdb, hwb, hnb⟩ := (isNormalized_iff _ _).1 hb
  have hla := digits_length a da hda
  have hlb := digits_length b db hdb
  have hb1 : 1 ≤ db.length := by
    rcases hnb with ⟨hne, _⟩ | h0
    · exact List.length_pos.2 hne
    · rw [h0]; simp [zeroDigits]
  obtain ⟨r, rs, hrun, _, hrd, hrw, hval, hsize, _, htop⟩ :=
    bn_add_spec result a b da db hr hda hdb hwa hwb (by omega) hb1 (by omega)
  have hrl := digits_length r rs hrd
  refine ⟨r, hrun, (isNormalized_iff _ _).2 ⟨rs, hrd, hrw, ?_⟩⟩
  have hge : da.length ≤ r.size := by rw [hsize]; exact Nat.le_add_right _ _
  have hrne : rs ≠ [] := by
    intro h
    rw [h] at hrl
    simp only [List.length_nil] at hrl
    omega
  rcases hna with ⟨_, hat⟩ | ha0
  · exact Or.inl ⟨hrne, htop hat⟩
  · -- a is the canonical zero, so b has one digit and the sum is b
    have hda0 : da = [0] := ha0
    subst hda0
    have hdb1 : db.length = 1 := by
      have : ([0] : List Nat).length = 1 := rfl
      omega
    obtain ⟨y, rfl⟩ : ∃ y, db = [y] := by
      match db, hdb1 with
      | [y], _ => exact ⟨y, rfl⟩
    have hy : y < U64 := hwb y (by simp)
    have hv : Nat.ofDigits U64 rs = y := by simpa using hval
    have hs1 : r.size = 1 := by
      rw [hsize]
      simp only [List.length_singleton, Nat.ofDigits_singleton, Nat.zero_add, Nat.pow_one]
      rw [Nat.div_eq_of_lt hy]
    have hrs : rs = [y] := by
      have hl1 : rs.length = 1 := by omega
      match rs, hl1 with
      | [z], _ =>
        have : z = y := by simpa using hv
        rw [this]
    rw [hrs]
    by_cases hy0 : y = 0
    · right; rw [hy0]; rfl
    · left; simp [hy0]

/-! ## The claims on addition, subtraction, shifts and the engines -/

/-- C11 (the code departs from the claim): for the normalized two-digit stores a = 2 ^ 64 + 1
and b = 2 ^ 128 - 1, `bn_add` gives the sum s with the digits 0, 1, 1, and `bn_sub` of s and b
gives the digits 1, 1, 1 in three digits instead of a: the borrow out of digit 0 meets the
digit 2 ^ 64 - 1 of b and is dropped. -/
theorem bn_add_then_sub_differs :
    bn_add bn_init (bn.ofDigits [1, 1]) (bn.ofDigits [2 ^ 64 - 1, 2 ^ 64 - 1])
      = some { ptr := some [some 0, some 1, some 1], size := 3, capacity := 3 } ∧
    bn_sub bn_init { ptr := some [some 0, some 1, some 1], size := 3, capacity := 3 }
        (bn.ofDigits [2 ^ 64 - 1, 2 ^ 64 - 1])
      = some { ptr := some [some 1, some 1, some 1], size := 3, capacity := 3 } ∧
    (bn.ofDigits [1, 1]).digits = some [1, 1] ∧
    bn.digits { ptr := some [some 1, some 1, some 1], size := 3, capacity := 3 }
      = some [1, 1, 1] ∧
    (bn.ofDigits [1, 1]).isNormalized ZeroConv.oneZeroDigit = true ∧
    (bn.ofDigits [2 ^ 64 - 1, 2 ^ 64 - 1]).isNormalized ZeroConv.oneZeroDigit = true := by
  decide

/-- C12 (the code departs from the claim): `bn_add` into a fresh store with a one-digit first
operand (the store 1 kept in a block of three slots) and the three-digit second operand
2 ^ 128.  The capacity test uses `size + 1 = 4` but the resize asks for `bn_size(a) + 1 = 2`
slots; the first loop then runs over three digits.  Two rounds fit the block, the third write
is outside it, and the code goes on to set the size to 3 with a capacity of 2. -/
theorem bn_add_exceeds_capacity :
    bn_assign (bn.ofDigits [5, 7, 9]) 1
      = some { ptr := some [some 1, some 7, some 9], size := 1, capacity := 3 } ∧
    MAX (bn_size { ptr := some [some 1, some 7, some 9], size := 1, capacity := 3 })
        (bn_size (bn.ofDigits [0, 0, 1])) = 3 ∧
    bn_resize bn_init
        ((bn_size { ptr := some [some 1, some 7, some 9], size := 1, capacity := 3 } + 1) % U32)
      = { ptr := some [none, none], size := 0, capacity := 2 } ∧
    bn_add_loop1 (some [some 1, some 7, some 9]) (some [some 0, some 0, some 1]) 2 0
        (some [none, none]) 0 = some (some [some 1, some 7], 0) ∧
    wr (some [some 1, some 7]) 2 ((9 + 1 + 0) % U64) = none ∧
    bn_add bn_init { ptr := some [some 1, some 7, some 9], size := 1, capacity := 3 }
        (bn.ofDigits [0, 0, 1]) = none := by
  decide

/-- C16 (the code departs from the claim): a shift by zero bits of the two-digit store with the
digits 1 and 2.  With `rem = 0` the loop of `bn_sll` shifts right by `N_BITS - rem = 64` and the
loop of `bn_srl` shifts left by 64, counts for which C defines no value, so neither call
returns a defined store.  On a one-digit store the loops do not run and the digit and the size
are kept. -/
theorem bn_shift_zero_multi_digit :
    bn_sll (bn.ofDigits [1, 2]) 0 = none ∧
    shr64 1 (N_BITS - 0) = none ∧
    bn_srl (bn.ofDigits [1, 2]) 0 = none ∧
    shl64 (2 &&& 0) (N_BITS - 0) = none ∧
    bn_sll (bn.ofDigits [1]) 0 = some { ptr := some [some 1, none], size := 1, capacity := 2 } ∧
    bn_srl (bn.ofDigits [1]) 0 = some (bn.ofDigits [1]) := by
  decide

/-- C18 (the code departs from the claim): the additive `fib_sequence` at index 94.  `bn_swap`
exchanges only the `ptr` members, so `fcur` and `fnext` keep size 1 and capacity 1 and `r` keeps
capacity 2 while the three blocks rotate.  After 92 rounds `r` points to a block of one slot;
round 93 adds F(93) and F(92), the sum carries, and the carry digit is written outside that
block.  The index 94 needs 94 rounds, and F(94) does not fit the one digit that `fcur` keeps. -/
theorem fib_sequence_bn_overrun :
    fib_bn_loop 92 (bn.ofDigits [0]) (bn.ofDigits [1]) bn_init
      = some ({ ptr := some [some 7540113804746346429, none], size := 1, capacity := 1 },
              { ptr := some [some 12200160415121876738], size := 1, capacity := 1 },
              { ptr := some [some 4660046610375530309], size := 1, capacity := 2 }) ∧
    bn_add { ptr := some [some 4660046610375530309], size := 1, capacity := 2 }
        { ptr := some [some 12200160415121876738], size := 1, capacity := 1 }
        { ptr := some [some 7540113804746346429, none], size := 1, capacity := 1 } = none ∧
    fib_bn_loop 94 (bn.ofDigits [0]) (bn.ofDigits [1]) bn_init = none ∧
    fib_sequence_bn 94 = none ∧
    U64 ≤ Nat.fib 94 := by
  have h0 : bn_assign bn_init 0 = some (bn.ofDigits [0]) := by decide
  have h1 : bn_assign bn_init 1 = some (bn.ofDigits [1]) := by decide
  have hl : fib_bn_loop 94 (bn.ofDigits [0]) (bn.ofDigits [1]) bn_init = none := by decide
  refine ⟨by decide, by decide, hl, ?_, by decide⟩
  unfold fib_sequence_bn
  rw [h0, h1]
  simp only [Option.bind_eq_bind, Option.some_bind, hl, Option.none_bind]

/-- The store from `bn_init` is well formed. -/
theorem wf_init : bn_init.wf := by
  simp [bn.wf, bn_init]

/-- C13 as stated fails: `bn_sub` of the normalized three-digit stores with the digits 5, 7, 9
and 4, 7, 9 leaves the digits 1, 0 in two digits, a zero top digit over the value 1, which is
normalized under neither convention for zero.  Moreover `bn_assign` of 0 leaves one zero digit
while `bn_sub` of 5 and 5 leaves no digit, so the two agree on no convention. -/
theorem normalization_not_kept :
    (bn.ofDigits [5, 7, 9]).isNormalized ZeroConv.lengthZero = true ∧
    (bn.ofDigits [5, 7, 9]).isNormalized ZeroConv.oneZeroDigit = true ∧
    (bn.ofDigits [4, 7, 9]).isNormalized ZeroConv.lengthZero = true ∧
    (bn.ofDigits [4, 7, 9]).isNormalized ZeroConv.oneZeroDigit = true ∧
    bn_sub bn_init (bn.ofDigits [5, 7, 9]) (bn.ofDigits [4, 7, 9])
      = some { ptr := some [some 1, some 0, some 0], size := 2, capacity := 3 } ∧
    bn.isNormalized ZeroConv.lengthZero
      { ptr := some [some 1, some 0, some 0], size := 2, capacity := 3 } = false ∧
    bn.isNormalized ZeroConv.oneZeroDigit
      { ptr := some [some 1, some 0, some 0], size := 2, capacity := 3 } = false ∧
    bn_assign bn_init 0 = some (bn.ofDigits [0]) ∧
    (bn.ofDigits [0]).isNormalized ZeroConv.lengthZero = false ∧
    bn_sub bn_init (bn.ofDigits [5]) (bn.ofDigits [5])
      = some { ptr := some [some 0], size := 0, capacity := 1 } ∧
    bn.isNormalized ZeroConv.oneZeroDigit
      { ptr := some [some 0], size := 0, capacity := 1 } = false := by
  decide

/-- C13 as amended: with zero held as one zero digit, `bn_assign` of any value to a normalized
store gives a normalized store, and `bn_add` of normalized stores `a` and `b`, `a` at least as
long as `b`, into a well-formed result gives a normalized store. -/
theorem bn_assign_add_keep_normalized (result a b : bn) (v : Nat) (hr : result.wf)
    (ha : a.isNormalized ZeroConv.oneZeroDigit = true)
    (hb : b.isNormalized ZeroConv.oneZeroDigit = true)
    (hlen : b.size ≤ a.size) (hsz : a.size + 1 < U32) :
    (∃ r, bn_assign a v = some r ∧ r.isNormalized ZeroConv.oneZeroDigit = true) ∧
    (∃ r, bn_add result a b = some r ∧ r.isNormalized ZeroConv.oneZeroDigit = true) := by
  refine ⟨?_, bn_add_normalized result a b hr ha hb hlen hsz⟩
  apply bn_assign_normalized
  obtain ⟨da, hda, _, hna⟩ := (isNormalized_iff _ _).1 ha
  have hla := digits_length a da hda
  have h1 : 1 ≤ da.length := by
    rcases hna with ⟨hne, _⟩ | h0
    · exact List.length_pos.2 hne
    · rw [h0]; simp [zeroDigits]
  right
  unfold bn.digits at hda
  cases hp : a.ptr with
  | none => rw [hp] at hda; simp only at hda; split at hda <;> [omega; cases hda]
  | some blk =>
    rw [hp] at hda
    simp only at hda
    split at hda
    · exact ⟨blk, rfl, by omega⟩
    · cases hda

/-- Witness for C13: assigning 0 to the store 2 ^ 64 - 1, and adding the stores 2 ^ 64 - 1 and 1 into a
fresh store, give normalized stores. -/
theorem bn_assign_add_keep_normalized_witness :
    (∃ r, bn_assign (bn.ofDigits [2 ^ 64 - 1]) 0 = some r ∧
      r.isNormalized ZeroConv.oneZeroDigit = true) ∧
    (∃ r, bn_add bn_init (bn.ofDigits [2 ^ 64 - 1]) (bn.ofDigits [1]) = some r ∧
      r.isNormalized ZeroConv.oneZeroDigit = true) :=
  bn_assign_add_keep_normalized bn_init (bn.ofDigits [2 ^ 64 - 1]) (bn.ofDigits [1]) 0 wf_init
    (by decide) (by decide) (by decide) (by decide)

/-- C14: for stores `a` and `b` of written 64-bit digits with `len a ≥ len b ≥ 1` and a
well-formed result store, one round of either loop of `bn_add` leaves the carry 1 exactly when
the sum of the digits and the incoming carry reaches 2 ^ 64; `bn_add` returns a store that
represents `value a + value b`, its length is `len a` plus the final carry, and its top digit
is non-zero whenever the top digit of `a` is. -/
theorem bn_add_exact (result a b : bn) (da db : List Nat) (x y c : Nat)
    (hr : result.wf) (ha : a.digits = some da) (hb : b.digits = some db)
    (hda : ∀ d ∈ da, d < U64) (hdb : ∀ d ∈ db, d < U64)
    (hlen : db.length ≤ da.length) (hb1 : 1 ≤ db.length) (hsz : da.length + 1 < U32)
    (hx : x < U64) (hy : y < U64) (hc : c ≤ 1) :
    bn_add_loop1 (some [some x]) (some [some y]) 1 0 (some [none]) c
      = some (some [some ((x + y + c) % U64)], if U64 ≤ x + y + c then 1 else 0) ∧
    bn_add_loop2 (some [some x]) 1 0 (some [none]) c
      = some (some [some ((x + c) % U64)], if U64 ≤ x + c then 1 else 0) ∧
    ∃ r rs, bn_add result a b = some r ∧ r.digits = some rs ∧
      r.value = some (Nat.ofDigits U64 da + Nat.ofDigits U64 db) ∧
      r.size = da.length + (Nat.ofDigits U64 da + Nat.ofDigits U64 db) / U64 ^ da.length ∧
      (Nat.ofDigits U64 da + Nat.ofDigits U64 db) / U64 ^ da.length ≤ 1 ∧
      r.size ≤ r.capacity ∧
      (da.getLast? ≠ some 0 → rs.getLast? ≠ some 0) := by
  have hU : 0 < U64 := by unfold U64; norm_num
  refine ⟨?_, ?_, ?_⟩
  · have e : (x + y + c) / U64 = if U64 ≤ x + y + c then 1 else 0 := by
      unfold U64 at *; split <;> omega
    simp [bn_add_loop1, rd, wr, bn_add_carry1 x y c hx hy hc, e]
  · have e : (x + c) / U64 = if U64 ≤ x + c then 1 else 0 := by
      unfold U64 at *; split <;> omega
    simp [bn_add_loop2, rd, wr, bn_add_carry2 x c hx hc, e]
  · obtain ⟨r, rs, hrun, _, hrd, _, hval, hsize, hcap, htop⟩ :=
      bn_add_spec result a b da db hr ha hb hda hdb hlen hb1 hsz
    refine ⟨r, rs, hrun, hrd, by simp [bn.value, hrd, hval], hsize, ?_, hcap, htop⟩
    have h1 : Nat.ofDigits U64 da < U64 ^ da.length :=
      Nat.ofDigits_lt_base_pow_length (by unfold U64; norm_num) hda
    have h2 : Nat.ofDigits U64 db < U64 ^ da.length :=
      lt_of_lt_of_le (Nat.ofDigits_lt_base_pow_length (by unfold U64; norm_num) hdb)
        (Nat.pow_le_pow_right hU hlen)
    apply Nat.le_of_lt_succ
    rw [Nat.div_lt_iff_lt_mul (by positivity)]
    omega

/-- Witness for C14: adding 1 to the two-digit store 6 * 2 ^ 64 - 1 into a fresh store. -/
theorem bn_add_exact_witness :
    ∃ r rs, bn_add bn_init (bn.ofDigits [2 ^ 64 - 1, 5]) (bn.ofDigits [1]) = some r ∧
      r.digits = some rs ∧
      r.value = some (Nat.ofDigits U64 [2 ^ 64 - 1, 5] + Nat.ofDigits U64 [1]) ∧
      r.size = [2 ^ 64 - 1, 5].length
        + (Nat.ofDigits U64 [2 ^ 64 - 1, 5] + Nat.ofDigits U64 [1]) / U64 ^ [2 ^ 64 - 1, 5].length ∧
      (Nat.ofDigits U64 [2 ^ 64 - 1, 5] + Nat.ofDigits U64 [1]) / U64 ^ [2 ^ 64 - 1, 5].length ≤ 1 ∧
      r.size ≤ r.capacity ∧
      (([2 ^ 64 - 1, 5] : List Nat).getLast? ≠ some 0 → rs.getLast? ≠ some 0) :=
  (bn_add_exact bn_init (bn.ofDigits [2 ^ 64 - 1, 5]) (bn.ofDigits [1]) [2 ^ 64 - 1, 5] [1]
    (2 ^ 64 - 1) 1 0 wf_init (by decide) (by decide) (by decide) (by decide) (by decide)
    (by decide) (by decide) (by decide) (by decide) (by decide)).2.2

/-- C15 as stated fails: `bn_sub` of the three-digit store with the digits 5, 7, 9 and itself
leaves two zero digits, neither length 0 nor a single zero digit. -/
theorem bn_sub_self_three_digits :
    bn_sub bn_init (bn.ofDigits [5, 7, 9]) (bn.ofDigits [5, 7, 9])
      = some { ptr := some [some 0, some 0, some 0], size := 2, capacity := 3 } ∧
    bn.digits { ptr := some [some 0, some 0, some 0], size := 2, capacity := 3 }
      = some [0, 0] := by
  decide

/-- C15 as amended: for a store `a` of `len a ≥ 1` written 64-bit digits and a well-formed
result store, `bn_sub(result, a, a)` yields `len a - 1` zero digits, so the value zero; the
result is in canonical form, length 0 or a single zero digit, when `len a ≤ 2`. -/
theorem bn_sub_self_zero (result a : bn) (da : List Nat) (hr : result.wf)
    (ha : a.digits = some da) (hda : ∀ d ∈ da, d < U64) (h1 : 1 ≤ da.length)
    (hsz : da.length < U32) :
    ∃ r, bn_sub result a a = some r ∧ r.size = da.length - 1 ∧
      r.digits = some (List.replicate (da.length - 1) 0) ∧ r.value = some 0 ∧
      (da.length ≤ 2 → r.size = 0 ∨ (r.size = 1 ∧ r.digits = some [0])) := by
  obtain ⟨r, hrun, hs, hd⟩ := bn_sub_self_spec result a da hr ha hda h1 hsz
  refine ⟨r, hrun, hs, hd, ?_, ?_⟩
  · have hz : ∀ n, Nat.ofDigits U64 (List.replicate n 0) = 0 := by
      intro n
      induction n with
      | zero => rfl
      | succ n ih => simp [List.replicate_succ, Nat.ofDigits_cons, ih]
    simp [bn.value, hd, hz]
  · intro h2
    rcases Nat.lt_or_ge da.length 2 with h | h
    · left; omega
    · right
      have e : da.length - 1 = 1 := by omega
      rw [e] at hs hd
      exact ⟨hs, hd⟩

/-- Witness for C15: subtracting the two-digit store with the digits 5, 7 from itself. -/
theorem bn_sub_self_zero_witness :
    ∃ r, bn_sub bn_init (bn.ofDigits [5, 7]) (bn.ofDigits [5, 7]) = some r ∧
      r.size = [5, 7].length - 1 ∧
      r.digits = some (List.replicate ([5, 7].length - 1) 0) ∧ r.value = some 0 ∧
      ([5, 7].length ≤ 2 → r.size = 0 ∨ (r.size = 1 ∧ r.digits = some [0])) :=
  bn_sub_self_zero bn_init (bn.ofDigits [5, 7]) [5, 7] wf_init (by decide) (by decide)
    (by decide) (by decide)

/-- C17: for an index `k ≤ MAX_LENGTH`, a normalized store (zero held as one zero digit) that
represents F(k) has at most 157 digits, so `DIGITS * size + 1` is within `BUFSIZE`; `bn_hex`
makes every write inside the buffer and returns the whole numeral of F(k). -/
theorem bn_hex_fib_in_buffer (k : Nat) (a : bn) (hk : k ≤ MAX_LENGTH)
    (hn : a.isNormalized ZeroConv.oneZeroDigit = true) (hv : a.value = some (Nat.fib k)) :
    DIGITS * a.size + 1 ≤ BUFSIZE ∧ a.size ≤ 157 ∧
    bn_hex a = some (hexNumeral (Nat.fib k)) := by
  obtain ⟨ds, hd, hw, hnz⟩ := (isNormalized_iff _ _).1 hn
  have hl := digits_length a ds hd
  have hval : Nat.ofDigits U64 ds = Nat.fib k := by
    simpa [bn.value, hd] using hv
  have h1 : 1 ≤ ds.length := by
    rcases hnz with ⟨hne, _⟩ | h0
    · exact List.length_pos.2 hne
    · rw [h0]; simp [zeroDigits]
  have hlen : ds.length ≤ 157 := by
    rcases hnz with ⟨hne, htop⟩ | h0
    · have hlt : Nat.ofDigits U64 ds < 2 ^ k := by rw [hval]; exact fib_lt_two_pow k
      have := length_le_of_value_lt ds hne htop k hlt
      unfold MAX_LENGTH at hk
      omega
    · rw [h0]; simp [zeroDigits]
  have hD : DIGITS = 16 := rfl
  have hB : BUFSIZE = 65536 := rfl
  refine ⟨by rw [hD, hB]; omega, by omega, ?_⟩
  rw [← hval]
  apply bn_hex_spec a ds hd hw (by omega) (by omega)
  rcases hnz with ⟨_, htop⟩ | h0
  · exact Or.inr htop
  · exact Or.inl h0

/-- Witness for C17: the one-digit store 55 = F(10). -/
theorem bn_hex_fib_in_buffer_witness :
    DIGITS * (bn.ofDigits [55]).size + 1 ≤ BUFSIZE ∧ (bn.ofDigits [55]).size ≤ 157 ∧
    bn_hex (bn.ofDigits [55]) = some (hexNumeral (Nat.fib 10)) :=
  bn_hex_fib_in_buffer 10 (bn.ofDigits [55]) (by decide) (by decide) (by decide)

set_option maxRecDepth 100000 in
/-- C19: with arithmetic modulo 2 ^ 64 the native `fib_sequence` returns F(k) for every
`k ≤ 92`; F(92) = 7540113804746346429 fits a signed 64-bit result and F(93) does not. -/
theorem fib_sequence_native (k : Nat) (hk : k ≤ 92) :
    fib_sequence k = some (Nat.fib k : Int) ∧
    Nat.fib 92 = 7540113804746346429 ∧ Nat.fib 92 ≤ 2 ^ 63 - 1 ∧ 2 ^ 63 - 1 < Nat.fib 93 := by
  revert k
  decide

/-- Witness for C19: the index 92. -/
theorem fib_sequence_native_witness :
    fib_sequence 92 = some (Nat.fib 92 : Int) ∧
    Nat.fib 92 = 7540113804746346429 ∧ Nat.fib 92 ≤ 2 ^ 63 - 1 ∧ 2 ^ 63 - 1 < Nat.fib 93 :=
  fib_sequence_native 92 (by decide)

/-- C20: `fib_device_lseek` returns a position between 0 and `MAX_LENGTH` and stores it as the
new file position, for every file position, offset and `whence`; for `SEEK_SET` with an offset
between 0 and `MAX_LENGTH` the position is the offset. -/
theorem fib_device_lseek_range (f : file) (offset orig : Int) :
    0 ≤ (fib_device_lseek f offset orig).2 ∧
    (fib_device_lseek f offset orig).2 ≤ (MAX_LENGTH : Int) ∧
    (fib_device_lseek f offset orig).1.f_pos = (fib_device_lseek f offset orig).2 ∧
    (orig = 0 → 0 ≤ offset → offset ≤ (MAX_LENGTH : Int) →
      (fib_device_lseek f offset orig).2 = offset) := by
  unfold fib_device_lseek MAX_LENGTH
  simp only
  refine ⟨?_, ?_, trivial, ?_⟩
  · split_ifs <;> omega
  · split_ifs <;> omega
  · intro h0 h1 h2
    rw [if_pos h0]
    split_ifs <;> omega

/-- Witness for C20: seeking to the offset 42 from the position 5 returns and stores 42. -/
theorem fib_device_lseek_range_witness :
    (fib_device_lseek { f_pos := 5 } 42 0).2 = 42 ∧
    (fib_device_lseek { f_pos := 5 } 42 0).1.f_pos = 42 :=
  ⟨(fib_device_lseek_range { f_pos := 5 } 42 0).2.2.2 rfl (by decide) (by decide),
   by decide⟩

end Fibdrv
